import Mathlib

/-!
Row-selection masks of droprowsbyposition.

A shallow embedding of `support.js`: the range-string parser `stringToMask`,
the serialiser `maskToString`, the two mask combinators `orMasks` and
`composeMasks`, and the use case `addSelectedRows`, followed by the
properties proved about them.

Modelling conventions

* A `Uint8Array` is a `List Nat` (its entries are bytes; a non-zero entry is
  truthy).  A store of `true` is a store of `1`, a store of `false` a store of
  `0`, as the typed array coerces them.
* A JavaScript string is a `String`, read through its list of characters.
* A JavaScript number that holds an integer is an `Int`; `NaN` is `none` in an
  `Option Int`.  Doubles are exact on integers below `2 ^ 53`, which bounds
  every array length, so the clamped values agree with the exact ones.
* A numeric field of the parameters is a `JsNumber`: a safe integer, printed
  with every digit, or any other value, taken with the text JavaScript prints
  for it.
-/

namespace DropRows

/-- A selection mask: the contents of a `Uint8Array`. -/
abbrev Mask := List Nat

/-- JavaScript truthiness of a byte. -/
def truthy (x : Nat) : Bool := x != 0

/-- The value of `a || b` on bytes: `a` when it is truthy, else `b`. -/
def jsOr (a b : Nat) : Nat := if truthy a then a else b

/-! ## orMasks -/

/-- The body of the `for (let i = 0; i < shortLen; i++)` loop of `orMasks`,
run for the indices `i, i+1, ...` (`n` of them):
`mask[i] = mask[i] || shortMask[i]`. -/
def orLoop (shortMask : Mask) : Nat → Nat → Mask → Mask
  | 0, _, mask => mask
  | n + 1, i, mask =>
    orLoop shortMask n (i + 1) (mask.set i (jsOr (mask.getD i 0) (shortMask.getD i 0)))

/-- The function `orMasks (mask1, mask2)`.  The source picks `longMask` with the
reference test `shortMask === mask1`; on values the two readings give the same
array, since two arrays that compare equal have the same contents. -/
def orMasks (mask1 mask2 : Mask) : Mask :=
  let shortMask := if mask1.length < mask2.length then mask1 else mask2
  let longMask := if shortMask = mask1 then mask2 else mask1
  let shortLen := shortMask.length
  orLoop shortMask shortLen 0 longMask

/-! ## composeMasks -/

/-- The `for` loop of `composeMasks`, with the cursors `i1`, `i2`, `j` and the
output buffer `mask` as explicit state.  The first argument after the masks
bounds the number of iterations; `composeLoop_exits` shows that the bound
`composeMasks` passes is never reached before the loop condition fails. -/
def composeLoop (mask1 mask2 : Mask) : Nat → Nat → Nat → Nat → Mask → Nat × Mask
  | 0, _, _, j, mask => (j, mask)
  | fuel + 1, i1, i2, j, mask =>
    if i1 < mask1.length ∨ i2 < mask2.length then
      if i1 < mask1.length ∧ truthy (mask1.getD i1 0) then
        composeLoop mask1 mask2 fuel (i1 + 1) i2 (j + 1) (mask.set j 1)
      else
        composeLoop mask1 mask2 fuel (i1 + 1) (i2 + 1) (j + 1)
          (mask.set j (if i2 < mask2.length then mask2.getD i2 0 else 0))
    else (j, mask)

/-- The function `composeMasks (mask1, mask2)`: a zeroed buffer of
`len1 + len2` entries, the loop, and `mask.slice(0, j)`. -/
def composeMasks (mask1 mask2 : Mask) : Mask :=
  let len1 := mask1.length
  let len2 := mask2.length
  let r := composeLoop mask1 mask2 (len1 + len2) 0 0 0 (List.replicate (len1 + len2) 0)
  r.2.take r.1

/-- The indices of the buffer that the loop of `composeMasks` stores to, in
order: the same loop as `composeLoop`, recording the `j` of every iteration
instead of the buffer. -/
def composeWrites (mask1 mask2 : Mask) : Nat → Nat → Nat → Nat → List Nat
  | 0, _, _, _ => []
  | fuel + 1, i1, i2, j =>
    if i1 < mask1.length ∨ i2 < mask2.length then
      if i1 < mask1.length ∧ truthy (mask1.getD i1 0) then
        j :: composeWrites mask1 mask2 fuel (i1 + 1) i2 (j + 1)
      else
        j :: composeWrites mask1 mask2 fuel (i1 + 1) (i2 + 1) (j + 1)
    else []

/-- The number of iterations the loop of `composeMasks` still runs from the
cursors `i1`, `i2`: until `mask1` is read through, and until `mask2` is, which
advances only on the entries of `mask1` that are not set. -/
def composeRemaining (mask1 mask2 : Mask) (i1 i2 : Nat) : Nat :=
  max (mask1.length - i1) ((mask2.length - i2) + (mask1.drop i1).countP truthy)

/-- The loop of `composeMasks` read as a recursion on the unread parts of the
two masks (the cursor `i1` always equals `j`, so the output is produced in
step with `mask1`); `composeMasks_eq_composeRec` proves the two agree. -/
def composeRec : Mask → Mask → Mask
  | [], m2 => m2
  | a :: m1, m2 =>
    if truthy a then 1 :: composeRec m1 m2 else m2.headD 0 :: composeRec m1 m2.tail

/-- The deletion a mask describes: `rows` without every element whose 0-based
position `i` satisfies `i < mask.length` and `mask[i]` set. -/
def del {α : Type} (mask : Mask) (rows : List α) : List α :=
  (rows.enum.filter (fun p => !(decide (p.1 < mask.length) && truthy (mask.getD p.1 0)))).map
    Prod.snd

/-- The same deletion by recursion on the mask and the rows together. -/
def delRec {α : Type} : Mask → List α → List α
  | [], rows => rows
  | _ :: _, [] => []
  | b :: mask, r :: rows => if truthy b then delRec mask rows else r :: delRec mask rows

/-! ## Strings and numbers -/

/-- The characters that `String.prototype.trim` and `parseInt` skip: the
ECMAScript `WhiteSpace` and `LineTerminator` code points. -/
def isWhiteSpace (c : Char) : Bool :=
  let n := c.toNat
  n == 0x09 || n == 0x0A || n == 0x0B || n == 0x0C || n == 0x0D || n == 0x20 ||
  n == 0xA0 || n == 0x1680 || (0x2000 ≤ n && n ≤ 0x200A) || n == 0x2028 ||
  n == 0x2029 || n == 0x202F || n == 0x205F || n == 0x3000 || n == 0xFEFF

/-- The method `s.trim()`. -/
def trim (s : List Char) : List Char :=
  ((s.dropWhile isWhiteSpace).reverse.dropWhile isWhiteSpace).reverse

/-- Is the character a decimal digit. -/
def isDigit (c : Char) : Bool := 48 ≤ c.toNat && c.toNat ≤ 57

/-- The numeric value of a run of decimal digits, most significant first. -/
def digitsValue (ds : List Char) : Nat :=
  ds.foldl (fun acc c => acc * 10 + (c.toNat - 48)) 0

/-- The call `parseInt(s, 10)`: skip leading white space, read an optional
sign, then the longest prefix of decimal digits; `NaN` (here `none`) when
there is no digit. -/
def parseInt (s : List Char) : Option Int :=
  let t := s.dropWhile isWhiteSpace
  let neg := t.head? = some '-'
  let u := if t.head? = some '-' ∨ t.head? = some '+' then t.tail else t
  let z := u.takeWhile isDigit
  if z = [] then none
  else if neg then some (-(digitsValue z : Int)) else some (digitsValue z : Int)

/-- The method `s.split(sep)` for a one-character separator (also
`s.split(/,/g)`): the pieces between the occurrences of `sep`; the empty
string gives one empty piece. -/
def splitOn (sep : Char) : List Char → List (List Char)
  | [] => [[]]
  | c :: cs =>
    if c = sep then [] :: splitOn sep cs
    else match splitOn sep cs with
      | [] => [[c]]
      | p :: ps => (c :: p) :: ps

/-- The conversion `String(n)` of a non-negative integer: its decimal digits. -/
def numToString (n : Nat) : List Char := Nat.toDigits 10 n

/-- The method `parts.join(sep)`. -/
def join (sep : List Char) : List (List Char) → List Char
  | [] => []
  | [x] => x
  | x :: y :: rest => x ++ sep ++ join sep (y :: rest)

/-! ## stringToMask -/

/-- The parser options. -/
structure Options where
  /-- The field `maxMaskLength`. -/
  maxMaskLength : Int

/-- The constant `DefaultOptions`. -/
def DefaultOptions : Options := ⟨2000000⟩

/-- The first two `map`/`filter` stages applied to one comma-separated piece:
split on `-` and map every part to `parseInt(s2.trim(), 10) - 1`. -/
def parseParts (s : List Char) : List (Option Int) :=
  (splitOn '-' s).map (fun s2 => (parseInt (trim s2)).map (fun n => n - 1))

/-- The stage that turns `A` into `[A, A]` and reads the array as the pair
`[a, b]` that the later stages destructure.  For a single number the source
builds `[s, s]` from the one-element array `s`; `isNaN`, `Math.max` and
`Math.min` coerce such an array to the number it holds, so the pair of
numbers is what the later stages see. -/
def toPair (s : List (Option Int)) : Option Int × Option Int :=
  if s.length = 1 then (s.headD none, s.headD none) else (s.headD none, s.tail.headD none)

/-- The filter `!isNaN(a) && !isNaN(b)`; from here on the bounds are integers. -/
def nixNaN : Option Int × Option Int → Option (Int × Int)
  | (some a, some b) => some (a, b)
  | _ => none

/-- The chain that computes `spans` in `stringToMask`. -/
def parseSpans (str : List Char) (maxMaskLength : Int) : List (Int × Int) :=
  (((((((splitOn ',' str).map parseParts).filter
    (fun s => s.length = 1 ∨ s.length = 2)).map toPair).filterMap nixNaN).map
    (fun s => (max 0 s.1, min (maxMaskLength - 1) s.2))).filter
    (fun s => s.1 ≤ s.2))

/-- The inner loop `for (let i = begin; i <= end; i++) mask[i] = 1`, run for
`n` indices from `i` on.  A typed array ignores a store at a negative index. -/
def markLoop : Nat → Int → Mask → Mask
  | 0, _, mask => mask
  | n + 1, i, mask => markLoop n (i + 1) (if 0 ≤ i then mask.set i.toNat 1 else mask)

/-- The loop `for (const [begin, end] of spans)` with its inner loop. -/
def markSpans (spans : List (Int × Int)) (mask : Mask) : Mask :=
  spans.foldl (fun m s => markLoop (s.2 + 1 - s.1).toNat s.1 m) mask

/-- The function `stringToMask (str, options)`; `none` is a call without
options. -/
def stringToMask (str : String) (options : Option Options) : Mask :=
  let maxMaskLength := (options.getD DefaultOptions).maxMaskLength
  let spans := parseSpans str.data maxMaskLength
  let len := spans.foldl (fun agg s => max agg (s.2 + 1)) (0 : Int)
  let mask := List.replicate len.toNat 0
  markSpans spans mask

/-- The clamp of the specification: the span `[a, b]` clamped to
`[0, maxLength - 1]`, kept when `a ≤ b` still holds afterwards. -/
def clampSpan (maxLength a b : Int) : Option (Int × Int) :=
  if max 0 a ≤ min (maxLength - 1) b then some (max 0 a, min (maxLength - 1) b) else none

/-- The surviving span of one token, in the words of the specification: the
token has one or two `-`-separated parts, all of which parse; the bounds are
converted to 0-based, a single number `a` standing for `[a, a]`, and the span
is clamped. -/
def survivingSpan (maxLength : Int) (token : List Char) : Option (Int × Int) :=
  match (splitOn '-' token).map (fun part => parseInt (trim part)) with
  | [some x] => clampSpan maxLength (x - 1) (x - 1)
  | [some x, some y] => clampSpan maxLength (x - 1) (y - 1)
  | _ => none

/-- The surviving spans of an input string, one per surviving token, in the
order of the tokens. -/
def survivingSpans (str : List Char) (maxLength : Int) : List (Int × Int) :=
  (splitOn ',' str).filterMap (survivingSpan maxLength)

/-- Does some span of the list contain the index `i`. -/
def covered (spans : List (Int × Int)) (i : Nat) : Prop :=
  ∃ s ∈ spans, s.1 ≤ (i : Int) ∧ (i : Int) ≤ s.2

instance (spans : List (Int × Int)) (i : Nat) : Decidable (covered spans i) := by
  unfold covered; infer_instance

/-! ## maskToString -/

/-- One iteration of the scanning loop of `maskToString`, on the state
`(spans, spanStart)`. -/
def scanStep (mask : Mask) (st : List (Nat × Nat) × Option Nat) (i : Nat) :
    List (Nat × Nat) × Option Nat :=
  let bit := mask.getD i 0
  match st.2 with
  | none => if truthy bit then (st.1, some i) else st
  | some spanStart => if truthy bit then st else (st.1 ++ [(spanStart, i - 1)], none)

/-- The spans collected by `maskToString`: the loop, then the push of a span
still open at the end. -/
def maskSpans (mask : Mask) : List (Nat × Nat) :=
  let len := mask.length
  let st := (List.range len).foldl (scanStep mask) ([], none)
  match st.2 with
  | none => st.1
  | some spanStart => st.1 ++ [(spanStart, len - 1)]

/-- The rendering of one span. -/
def renderSpan (span : Nat × Nat) : List Char :=
  if span.1 = span.2 then numToString (span.1 + 1)
  else numToString (span.1 + 1) ++ '-' :: numToString (span.2 + 1)

/-- The function `maskToString (mask)`. -/
def maskToString (mask : Mask) : String :=
  ⟨join [',', ' '] ((maskSpans mask).map renderSpan)⟩

/-! ## Predicates on masks -/

/-- A 0/1 mask: every entry is `0` or `1`. -/
def IsBoolMask (mask : Mask) : Prop := ∀ x ∈ mask, x = 0 ∨ x = 1

instance (mask : Mask) : Decidable (IsBoolMask mask) := by
  unfold IsBoolMask; infer_instance

/-- Is entry `i` of the mask set (an index past the end reads as unset). -/
def isSet (mask : Mask) (i : Nat) : Prop := truthy (mask.getD i 0) = true

instance (mask : Mask) (i : Nat) : Decidable (isSet mask i) := by
  unfold isSet; infer_instance

/-- The mask of the test helper `MASK(...)`. -/
def MASK (args : List Nat) : Mask := args


/-- The pair `[start, end]` is a maximal run of consecutive set entries of
the mask: every entry from `start` to `end` is set, the entry before `start`
(when there is one) is unset and so is the entry after `end`. -/
def IsMaximalRun (mask : Mask) (p : Nat × Nat) : Prop :=
  p.1 ≤ p.2 ∧ (∀ k, p.1 ≤ k → k ≤ p.2 → isSet mask k) ∧
    (p.1 = 0 ∨ ¬ isSet mask (p.1 - 1)) ∧ ¬ isSet mask (p.2 + 1)

/-- Minimal-length form: the mask is empty or its last entry is set, so its
length is one past the highest selected index. -/
def IsMinimal (mask : Mask) : Prop := mask = [] ∨ isSet mask (mask.length - 1)

instance (mask : Mask) : Decidable (IsMinimal mask) := by
  unfold IsMinimal; infer_instance

/-! ## addSelectedRows -/

/-- The conversion `String(n)` of a safe integer (`Number.isSafeInteger`, a
magnitude below `2 ^ 53`): a sign and every decimal digit.  It is applied to
safe integers only, through `JsNumber.printed`; a number of larger magnitude
is printed by JavaScript rounded to its shortest digits, and from `1e21` on in
exponent notation, which is not this function. -/
def intToString (n : Int) : List Char :=
  if n < 0 then '-' :: numToString n.natAbs else numToString n.toNat

/-- The value of a field `first_row` or `last_row`, as `addSelectedRows` uses
it: only through its truthiness (in the guard) and through the text that
`join` prints for it.  A safe integer is held exactly; its text is every
decimal digit and it is truthy when it is not `0`.  Any other value (a number
of magnitude `2 ^ 53` or more, such as `1e21`, printed `1e+21`; a fraction;
`NaN`) is given by the text JavaScript prints for it and by its truthiness. -/
inductive JsNumber where
  /-- A safe integer. -/
  | int (n : Int) (safe : n.natAbs < 9007199254740992)
  /-- Any other value, by its printed text and its truthiness. -/
  | other (printed : String) (truthy : Bool)
  deriving DecidableEq

/-- JavaScript truthiness of the value. -/
def JsNumber.truthy : JsNumber → Bool
  | .int n _ => n != 0
  | .other _ t => t

/-- The text `join` prints for the value. -/
def JsNumber.printed : JsNumber → List Char
  | .int n _ => intToString n
  | .other p _ => p.data

/-- The number `0` that `addSelectedRows` writes to the legacy fields. -/
def JsNumber.zero : JsNumber := .int 0 (by decide)

/-- The selection parameters, in either schema: a field that the object does
not have is `none`. -/
structure Params where
  /-- The field `rows` of schema v1. -/
  rows : Option String
  /-- The field `first_row` of schema v0. -/
  first_row : Option JsNumber
  /-- The field `last_row` of schema v0. -/
  last_row : Option JsNumber
  deriving DecidableEq

/-- JavaScript truthiness of a numeric field: present and truthy (for an
integer: not `0`). -/
def numberTruthy : Option JsNumber → Bool
  | some x => x.truthy
  | none => false

/-- JavaScript truthiness of a string field: present and not empty. -/
def stringTruthy : Option String → Bool
  | some s => s != ""
  | none => false

/-- The guard `oldParams.first_row && oldParams.last_row && !oldParams.rows`. -/
def isSchemaV0 (oldParams : Params) : Bool :=
  numberTruthy oldParams.first_row && numberTruthy oldParams.last_row &&
    !stringTruthy oldParams.rows

/-- The variable `oldRows` of `addSelectedRows`: in the guarded branch
`[first_row, last_row].join('-')`, else `oldParams.rows || ''`. -/
def oldRows (oldParams : Params) : String :=
  if isSchemaV0 oldParams then
    ⟨join ['-'] [(oldParams.first_row.getD JsNumber.zero).printed,
      (oldParams.last_row.getD JsNumber.zero).printed]⟩
  else if stringTruthy oldParams.rows then oldParams.rows.getD "" else ""

/-- The variable `newMask` of `addSelectedRows`: both strings parsed with the
default options and combined by `orMasks` or by `composeMasks`. -/
def newMask (oldParams : Params) (addRows : String) (fromInput : Bool) : Mask :=
  let oldMask := stringToMask (oldRows oldParams) none
  let addMask := stringToMask addRows none
  if fromInput then orMasks oldMask addMask else composeMasks oldMask addMask

/-- The function `addSelectedRows (oldParams, addRows, fromInput)`: the object
`ret`, with `first_row` and `last_row` set to `0` in the guarded branch only. -/
def addSelectedRows (oldParams : Params) (addRows : String) (fromInput : Bool) : Params :=
  ⟨some (maskToString (newMask oldParams addRows fromInput)),
    if isSchemaV0 oldParams then some JsNumber.zero else none,
    if isSchemaV0 oldParams then some JsNumber.zero else none⟩

/-! ## Properties of orMasks -/

theorem orLoop_length (shortMask : Mask) (n i : Nat) (mask : Mask) :
    (orLoop shortMask n i mask).length = mask.length := by
  induction n generalizing i mask with
  | zero => rfl
  | succ n ih => simp [orLoop, ih]

theorem orLoop_getElem? (shortMask : Mask) (n i : Nat) (mask : Mask)
    (h : i + n ≤ mask.length) (k : Nat) :
    (orLoop shortMask n i mask)[k]? =
      if i ≤ k ∧ k < i + n then some (jsOr (mask.getD k 0) (shortMask.getD k 0))
      else mask[k]? := by
  induction n generalizing i mask with
  | zero => rw [orLoop, if_neg (by omega)]
  | succ n ih =>
    rw [orLoop, ih _ _ (by simp; omega)]
    by_cases hk : k = i
    · subst hk
      have h1 : ¬ (k + 1 ≤ k ∧ k < k + 1 + n) := by omega
      have h2 : k ≤ k ∧ k < k + (n + 1) := by omega
      rw [if_neg h1, if_pos h2, List.getElem?_set_self (by omega)]
    · have hne : i ≠ k := fun e => hk e.symm
      simp only [List.getD_eq_getElem?_getD, List.getElem?_set_ne hne]
      by_cases h3 : i + 1 ≤ k ∧ k < i + 1 + n
      · rw [if_pos h3, if_pos (by omega)]
      · rw [if_neg h3, if_neg (by omega)]

/-- The entries of `orMasks`: within the shorter mask the `||` of the two
entries (the longer mask's first), beyond it the longer mask's own entry. -/
theorem orMasks_getElem? (mask1 mask2 : Mask) (k : Nat) :
    (orMasks mask1 mask2)[k]? =
      if mask1.length < mask2.length then
        (if k < mask1.length then some (jsOr (mask2.getD k 0) (mask1.getD k 0)) else mask2[k]?)
      else
        (if k < mask2.length then some (jsOr (mask1.getD k 0) (mask2.getD k 0)) else mask1[k]?) := by
  unfold orMasks
  by_cases hlt : mask1.length < mask2.length
  · simp only [if_pos hlt, if_true]
    rw [orLoop_getElem? _ _ _ _ (by omega)]
    simp
  · simp only [if_neg hlt]
    by_cases he : mask2 = mask1
    · subst he
      simp only [if_true]
      rw [orLoop_getElem? _ _ _ _ (by omega)]
      simp
    · simp only [if_neg he]
      rw [orLoop_getElem? _ _ _ _ (by omega)]
      simp

theorem orMasks_length (mask1 mask2 : Mask) :
    (orMasks mask1 mask2).length = max mask1.length mask2.length := by
  unfold orMasks
  by_cases hlt : mask1.length < mask2.length
  · simp only [if_pos hlt, if_true, orLoop_length]; omega
  · simp only [if_neg hlt]
    by_cases he : mask2 = mask1
    · subst he; simp [orLoop_length]
    · simp only [if_neg he, orLoop_length]; omega

theorem truthy_jsOr (a b : Nat) : truthy (jsOr a b) = (truthy a || truthy b) := by
  unfold jsOr
  cases h : truthy a <;> simp [h]

theorem isSet_iff_getElem? (mask : Mask) (i : Nat) :
    isSet mask i ↔ ∃ x, mask[i]? = some x ∧ truthy x = true := by
  unfold isSet
  rw [List.getD_eq_getElem?_getD]
  cases h : mask[i]? with
  | none => simp [truthy]
  | some x => simp

theorem isSet_lt_length {mask : Mask} {i : Nat} (h : isSet mask i) : i < mask.length := by
  rw [isSet_iff_getElem?] at h
  obtain ⟨x, hx, _⟩ := h
  by_contra hc
  rw [List.getElem?_eq_none (by omega)] at hx
  cases hx

theorem isSet_orMasks (mask1 mask2 : Mask) (i : Nat) :
    isSet (orMasks mask1 mask2) i ↔ isSet mask1 i ∨ isSet mask2 i := by
  have key : ∀ (a b : Mask), i < b.length → b.length ≤ a.length →
      (truthy (jsOr (a.getD i 0) (b.getD i 0)) = true ↔ isSet a i ∨ isSet b i) := by
    intro a b _ _
    rw [truthy_jsOr]; simp [isSet]
  have far : ∀ (a b : Mask), ¬ i < b.length → (isSet a i ↔ isSet a i ∨ isSet b i) := by
    intro a b hb
    constructor
    · exact Or.inl
    · rintro (h | h)
      · exact h
      · exact absurd (isSet_lt_length h) hb
  by_cases hlt : mask1.length < mask2.length
  · by_cases hk : i < mask1.length
    · have := orMasks_getElem? mask1 mask2 i
      rw [if_pos hlt, if_pos hk] at this
      rw [isSet_iff_getElem?, this]
      simp only [Option.some.injEq, exists_eq_left']
      rw [key mask2 mask1 hk (by omega)]; exact or_comm
    · have := orMasks_getElem? mask1 mask2 i
      rw [if_pos hlt, if_neg hk] at this
      rw [isSet_iff_getElem?, this, ← isSet_iff_getElem?]
      exact (far mask2 mask1 hk).trans or_comm
  · by_cases hk : i < mask2.length
    · have := orMasks_getElem? mask1 mask2 i
      rw [if_neg hlt, if_pos hk] at this
      rw [isSet_iff_getElem?, this]
      simp only [Option.some.injEq, exists_eq_left']
      exact key mask1 mask2 hk (by omega)
    · have := orMasks_getElem? mask1 mask2 i
      rw [if_neg hlt, if_neg hk] at this
      rw [isSet_iff_getElem?, this, ← isSet_iff_getElem?]
      exact far mask1 mask2 hk

theorem IsBoolMask.getD {mask : Mask} (h : IsBoolMask mask) (k : Nat) :
    mask.getD k 0 = 0 ∨ mask.getD k 0 = 1 := by
  rw [List.getD_eq_getElem?_getD]
  cases hk : mask[k]? with
  | none => left; rfl
  | some x => exact h x (List.getElem?_mem hk)

theorem jsOr_comm_of_bool {a b : Nat} (ha : a = 0 ∨ a = 1) (hb : b = 0 ∨ b = 1) :
    jsOr a b = jsOr b a := by
  rcases ha with rfl | rfl <;> rcases hb with rfl | rfl <;> rfl

/-- C5: `orMasks` is the pointwise OR with false-padding.  The result is as
long as the longer argument, and entry `i` of the result is set exactly when
`i` is inside `mask1` and set there, or inside `mask2` and set there. -/
theorem orMasks_pointwise_or (mask1 mask2 : Mask) :
    (orMasks mask1 mask2).length = max mask1.length mask2.length ∧
    ∀ i, isSet (orMasks mask1 mask2) i ↔
      (i < mask1.length ∧ isSet mask1 i) ∨ (i < mask2.length ∧ isSet mask2 i) := by
  refine ⟨orMasks_length mask1 mask2, fun i => ?_⟩
  rw [isSet_orMasks]
  constructor
  · rintro (h | h)
    · exact Or.inl ⟨isSet_lt_length h, h⟩
    · exact Or.inr ⟨isSet_lt_length h, h⟩
  · rintro (h | h)
    · exact Or.inl h.2
    · exact Or.inr h.2

/-- C6: `orMasks` is commutative on 0/1 masks, whatever their lengths. -/
theorem orMasks_comm (A B : Mask) (hA : IsBoolMask A) (hB : IsBoolMask B) :
    orMasks A B = orMasks B A := by
  apply List.ext_getElem?
  intro k
  rw [orMasks_getElem?, orMasks_getElem?]
  by_cases h1 : A.length < B.length
  · have h2 : ¬ B.length < A.length := by omega
    simp only [if_pos h1, if_neg h2]
  · rw [if_neg h1]
    by_cases h2 : B.length < A.length
    · rw [if_pos h2]
    · rw [if_neg h2]
      have he : A.length = B.length := by omega
      by_cases hk : k < B.length
      · rw [if_pos hk, if_pos (by omega), jsOr_comm_of_bool (hA.getD k) (hB.getD k)]
      · rw [if_neg hk, if_neg (by omega), List.getElem?_eq_none (by omega),
          List.getElem?_eq_none (by omega)]

/-- The commutativity of `orMasks` at two 0/1 masks of different lengths. -/
theorem orMasks_comm_witness :
    IsBoolMask [1, 0, 0, 1] ∧ IsBoolMask [0, 1] ∧
    orMasks [1, 0, 0, 1] [0, 1] = orMasks [0, 1] [1, 0, 0, 1] :=
  ⟨by decide, by decide, orMasks_comm [1, 0, 0, 1] [0, 1] (by decide) (by decide)⟩

/-- C7: the empty mask is an identity for `orMasks` on either side, for every
mask (of any byte values). -/
theorem orMasks_empty_identity (A : Mask) :
    orMasks A [] = A ∧ orMasks [] A = A := by
  constructor
  · apply List.ext_getElem?
    intro k
    rw [orMasks_getElem?]
    simp
  · apply List.ext_getElem?
    intro k
    rw [orMasks_getElem?]
    by_cases h : 0 < A.length
    · simp [h]
    · have : A = [] := List.eq_nil_of_length_eq_zero (by omega)
      subst this
      simp

/-! ## Properties of composeMasks -/

theorem take_set_ge (buf : Mask) (j k v : Nat) (h : j ≤ k) :
    (buf.set k v).take j = buf.take j := by
  apply List.ext_getElem?
  intro n
  rw [List.getElem?_take, List.getElem?_take]
  by_cases hn : n < j
  · rw [if_pos hn, if_pos hn, List.getElem?_set_ne (by omega)]
  · rw [if_neg hn, if_neg hn]

theorem take_succ_set (buf : Mask) (j v : Nat) (h : j < buf.length) :
    (buf.set j v).take (j + 1) = buf.take j ++ [v] := by
  rw [List.take_succ, List.getElem?_set_self h, take_set_ge _ _ _ _ (le_refl _)]
  rfl

/-- The loop, started in any state with room left in the buffer and at least
as many iterations allowed as entries remain unread, returns the buffer prefix
it was given followed by `composeRec` of the unread parts. -/
theorem composeLoop_eq (mask1 mask2 : Mask) (fuel i1 i2 j : Nat) (buf : Mask)
    (hf : (mask1.length - i1) + (mask2.length - i2) ≤ fuel)
    (hb : j + (mask1.length - i1) + (mask2.length - i2) ≤ buf.length) :
    (composeLoop mask1 mask2 fuel i1 i2 j buf).2.take (composeLoop mask1 mask2 fuel i1 i2 j buf).1
      = buf.take j ++ composeRec (mask1.drop i1) (mask2.drop i2) := by
  induction fuel generalizing i1 i2 j buf with
  | zero =>
    have h1 : mask1.drop i1 = [] := List.drop_eq_nil_of_le (by omega)
    have h2 : mask2.drop i2 = [] := List.drop_eq_nil_of_le (by omega)
    simp [composeLoop, h1, h2, composeRec]
  | succ fuel ih =>
    rw [composeLoop]
    by_cases hc : i1 < mask1.length ∨ i2 < mask2.length
    · rw [if_pos hc]
      have hj : j < buf.length := by omega
      by_cases h1 : i1 < mask1.length
      · have hd : mask1.drop i1 = mask1[i1] :: mask1.drop (i1 + 1) := List.drop_eq_getElem_cons h1
        have hg : mask1.getD i1 0 = mask1[i1] := by
          rw [List.getD_eq_getElem?_getD, List.getElem?_eq_getElem h1]; rfl
        by_cases ht : truthy (mask1.getD i1 0) = true
        · rw [if_pos ⟨h1, ht⟩, ih _ _ _ _ (by omega) (by simp; omega), take_succ_set _ _ _ hj, hd,
            composeRec, ← hg, if_pos ht]
          simp
        · rw [if_neg (fun h => ht h.2), ih _ _ _ _ (by omega) (by simp; omega),
            take_succ_set _ _ _ hj, hd, composeRec, ← hg, if_neg ht]
          by_cases h2 : i2 < mask2.length
          · rw [List.drop_eq_getElem_cons h2, if_pos h2]
            simp [List.getElem?_eq_getElem h2]
          · rw [if_neg h2, List.drop_eq_nil_of_le (by omega : mask2.length ≤ i2),
              List.drop_eq_nil_of_le (by omega : mask2.length ≤ i2 + 1)]
            simp
      · have h2 : i2 < mask2.length := by omega
        rw [if_neg (fun h => h1 h.1), ih _ _ _ _ (by omega) (by simp; omega),
          take_succ_set _ _ _ hj, if_pos h2,
          List.drop_eq_nil_of_le (by omega : mask1.length ≤ i1),
          List.drop_eq_nil_of_le (by omega : mask1.length ≤ i1 + 1),
          List.drop_eq_getElem_cons h2, List.getD_eq_getElem?_getD, List.getElem?_eq_getElem h2]
        simp [composeRec]
    · rw [if_neg hc]
      have h1 : mask1.drop i1 = [] := List.drop_eq_nil_of_le (by omega)
      have h2 : mask2.drop i2 = [] := List.drop_eq_nil_of_le (by omega)
      simp [h1, h2, composeRec]

/-- The iteration bound is never what stops the loop: once it is at least the
number of entries still unread, any larger bound gives the same final state. -/
theorem composeLoop_exits (mask1 mask2 : Mask) (fuel extra i1 i2 j : Nat) (buf : Mask)
    (hf : (mask1.length - i1) + (mask2.length - i2) ≤ fuel) :
    composeLoop mask1 mask2 (fuel + extra) i1 i2 j buf
      = composeLoop mask1 mask2 fuel i1 i2 j buf := by
  induction fuel generalizing i1 i2 j buf with
  | zero =>
    cases extra with
    | zero => rfl
    | succ e =>
      rw [Nat.zero_add, composeLoop, composeLoop, if_neg (by omega)]
  | succ fuel ih =>
    rw [Nat.add_right_comm, composeLoop, composeLoop]
    by_cases hc : i1 < mask1.length ∨ i2 < mask2.length
    · rw [if_pos hc, if_pos hc]
      by_cases h1 : i1 < mask1.length ∧ truthy (mask1.getD i1 0) = true
      · rw [if_pos h1, if_pos h1, ih _ _ _ _ (by omega)]
      · rw [if_neg h1, if_neg h1, ih _ _ _ _ (by omega)]
    · rw [if_neg hc, if_neg hc]

theorem composeMasks_eq_composeRec (mask1 mask2 : Mask) :
    composeMasks mask1 mask2 = composeRec mask1 mask2 := by
  unfold composeMasks
  have := composeLoop_eq mask1 mask2 (mask1.length + mask2.length) 0 0 0
    (List.replicate (mask1.length + mask2.length) 0) (by simp) (by simp)
  simpa using this

theorem delRec_nil {α : Type} (mask : Mask) : delRec mask ([] : List α) = [] := by
  cases mask <;> rfl

theorem del_enumFrom {α : Type} (mask : Mask) (rows : List α) (n : Nat) :
    ((rows.enumFrom n).filter
        (fun p => !(decide (p.1 < mask.length) && truthy (mask.getD p.1 0)))).map Prod.snd
      = delRec (mask.drop n) rows := by
  induction rows generalizing n with
  | nil => simp [delRec_nil]
  | cons r rs ih =>
    rw [List.enumFrom_cons, List.filter_cons]
    dsimp only
    by_cases hn : n < mask.length
    · have hg : mask.getD n 0 = mask[n] := by
        rw [List.getD_eq_getElem?_getD, List.getElem?_eq_getElem hn]; rfl
      rw [List.drop_eq_getElem_cons hn, delRec, ← hg]
      by_cases ht : truthy (mask.getD n 0) = true
      · have hp : (!(decide (n < mask.length) && truthy (mask.getD n 0))) = false := by
          rw [ht]; simp [hn]
        rw [hp, if_neg (by simp), if_pos ht, ih]
      · have hp : (!(decide (n < mask.length) && truthy (mask.getD n 0))) = true := by
          rw [(Bool.not_eq_true _).mp ht]; simp
        rw [hp, if_pos rfl, if_neg ht, List.map_cons, ih]
    · have h0 : mask.drop n = [] := List.drop_eq_nil_of_le (by omega)
      have h1 : mask.drop (n + 1) = [] := List.drop_eq_nil_of_le (by omega)
      have hp : (!(decide (n < mask.length) && truthy (mask.getD n 0))) = true := by
        simp [hn]
      have hrs : delRec [] rs = rs := by cases rs <;> rfl
      rw [hp, if_pos rfl, List.map_cons, ih, h0, h1, hrs]
      rfl

theorem del_eq_delRec {α : Type} (mask : Mask) (rows : List α) :
    del mask rows = delRec mask rows := by
  have := del_enumFrom mask rows 0
  simpa [del, List.enum] using this

theorem delRec_composeRec {α : Type} (mask1 mask2 : Mask) (rows : List α) :
    delRec (composeRec mask1 mask2) rows = delRec mask2 (delRec mask1 rows) := by
  induction mask1 generalizing mask2 rows with
  | nil => simp [composeRec, delRec]
  | cons a m1 ih =>
    cases rows with
    | nil => simp [delRec_nil]
    | cons r rs =>
      rw [composeRec]
      by_cases ht : truthy a = true
      · rw [if_pos ht, delRec, delRec, if_pos ht, if_pos (by rfl), ih]
      · rw [if_neg ht, delRec, delRec, if_neg ht, ih]
        cases mask2 with
        | nil => simp [delRec, truthy]
        | cons b m2 => simp [delRec]

/-- C1: `composeMasks` is equivalent to two sequential deletions.  Deleting
from any list of rows by `composeMasks mask1 mask2` gives what deleting by
`mask1` and then, from what is left, by `mask2` gives; the rows may be fewer
or more than the masks are long. -/
theorem composeMasks_sequential_deletion {α : Type} (mask1 mask2 : Mask) (rows : List α) :
    del (composeMasks mask1 mask2) rows = del mask2 (del mask1 rows) := by
  rw [composeMasks_eq_composeRec, del_eq_delRec, del_eq_delRec, del_eq_delRec,
    delRec_composeRec]

theorem composeRec_nil_right (m : Mask) (h : IsBoolMask m) : composeRec m [] = m := by
  induction m with
  | nil => rfl
  | cons a m ih =>
    have ha : a = 0 ∨ a = 1 := h a (List.mem_cons_self _ _)
    have hm : IsBoolMask m := fun x hx => h x (List.mem_cons_of_mem _ hx)
    rw [composeRec]
    rcases ha with rfl | rfl
    · simp [truthy, ih hm]
    · simp [truthy, ih hm]

/-- C8 (the code at the failing input): `composeMasks (MASK(0), MASK())`
returns `MASK(0)`, a non-empty mask whose last entry is not set. -/
theorem composeMasks_last_entry_unset :
    composeMasks (MASK [0]) (MASK []) = MASK [0] ∧
    composeMasks (MASK [0]) (MASK []) ≠ [] ∧
    ¬ isSet (composeMasks (MASK [0]) (MASK []))
        ((composeMasks (MASK [0]) (MASK [])).length - 1) := by
  decide

/-- C9: the empty mask is a two-sided identity for `composeMasks` on 0/1
masks, and composing two empty masks gives the empty mask. -/
theorem composeMasks_empty_identity (m : Mask) (h : IsBoolMask m) :
    composeMasks m [] = m ∧ composeMasks [] m = m ∧ composeMasks [] [] = [] := by
  refine ⟨?_, ?_, by decide⟩
  · rw [composeMasks_eq_composeRec, composeRec_nil_right m h]
  · rw [composeMasks_eq_composeRec, composeRec]

/-- The identity law of `composeMasks` at the 0/1 mask `MASK(0,1,1,0,1)`. -/
theorem composeMasks_empty_identity_witness :
    IsBoolMask [0, 1, 1, 0, 1] ∧
    (composeMasks [0, 1, 1, 0, 1] [] = [0, 1, 1, 0, 1] ∧
      composeMasks [] [0, 1, 1, 0, 1] = [0, 1, 1, 0, 1] ∧ composeMasks [] [] = []) :=
  ⟨by decide, composeMasks_empty_identity [0, 1, 1, 0, 1] (by decide)⟩

/-- C10: `composeMasks` depends on the order of its arguments.  The docstring
examples: composing the masks of `2` and `1-3` serialises to `1-4`, in the
other order to `1-3, 5`; `MASK(0,1,0)` and `MASK(1,1,1)` compose to different
masks in the two orders; so `composeMasks` is not commutative. -/
theorem composeMasks_order_dependent :
    maskToString (composeMasks (stringToMask "2" none) (stringToMask "1-3" none)) = "1-4" ∧
    maskToString (composeMasks (stringToMask "1-3" none) (stringToMask "2" none)) = "1-3, 5" ∧
    composeMasks (MASK [0, 1, 0]) (MASK [1, 1, 1]) ≠
      composeMasks (MASK [1, 1, 1]) (MASK [0, 1, 0]) ∧
    ∃ A B : Mask, composeMasks A B ≠ composeMasks B A := by
  refine ⟨by decide, by decide, by decide, MASK [0, 1, 0], MASK [1, 1, 1], by decide⟩

/-! ## Properties of stringToMask -/

/-- The chain of `map` and `filter` stages keeps exactly the surviving spans
of the specification, token by token. -/
theorem spanChain_eq_filterMap (maxLength : Int) (tokens : List (List Char)) :
    (((((tokens.map parseParts).filter
      (fun s => s.length = 1 ∨ s.length = 2)).map toPair).filterMap nixNaN).map
      (fun s => (max 0 s.1, min (maxLength - 1) s.2))).filter (fun s => s.1 ≤ s.2)
      = tokens.filterMap (survivingSpan maxLength) := by
  induction tokens with
  | nil => rfl
  | cons tok rest ih =>
    rw [List.filterMap_cons, ← ih]
    have hp : parseParts tok =
        ((splitOn '-' tok).map (fun part => parseInt (trim part))).map
          (fun o => o.map (fun n => n - 1)) := by
      simp [parseParts, List.map_map, Function.comp_def]
    unfold survivingSpan
    rw [List.map_cons, hp]
    generalize (splitOn '-' tok).map (fun part => parseInt (trim part)) = P
    rcases P with _ | ⟨x, _ | ⟨y, _ | ⟨z, t⟩⟩⟩
    · simp
    · cases x with
      | none => simp [toPair, nixNaN]
      | some x =>
        by_cases hc : max 0 (x - 1) ≤ min (maxLength - 1) (x - 1)
        · simp [toPair, nixNaN, clampSpan, hc]
        · simp [toPair, nixNaN, clampSpan, hc]
    · cases x with
      | none => simp [toPair, nixNaN]
      | some x =>
        cases y with
        | none => simp [toPair, nixNaN]
        | some y =>
          by_cases hc : max 0 (x - 1) ≤ min (maxLength - 1) (y - 1)
          · simp [toPair, nixNaN, clampSpan, hc]
          · simp [toPair, nixNaN, clampSpan, hc]
    · simp

theorem parseSpans_eq_survivingSpans (str : List Char) (maxLength : Int) :
    parseSpans str maxLength = survivingSpans str maxLength := by
  unfold parseSpans survivingSpans
  exact spanChain_eq_filterMap maxLength (splitOn ',' str)

theorem clampSpan_bounds {maxLength a b : Int} {s : Int × Int}
    (h : clampSpan maxLength a b = some s) : 0 ≤ s.1 ∧ s.1 ≤ s.2 ∧ s.2 ≤ maxLength - 1 := by
  unfold clampSpan at h
  split at h
  · cases h
    refine ⟨le_max_left _ _, by assumption, min_le_left _ _⟩
  · cases h

theorem survivingSpans_bounds {str : List Char} {maxLength : Int} {s : Int × Int}
    (h : s ∈ survivingSpans str maxLength) : 0 ≤ s.1 ∧ s.1 ≤ s.2 ∧ s.2 ≤ maxLength - 1 := by
  unfold survivingSpans at h
  rw [List.mem_filterMap] at h
  obtain ⟨tok, _, htok⟩ := h
  unfold survivingSpan at htok
  split at htok
  · exact clampSpan_bounds htok
  · exact clampSpan_bounds htok
  · cases htok

theorem markLoop_length (n : Nat) (i : Int) (mask : Mask) :
    (markLoop n i mask).length = mask.length := by
  induction n generalizing i mask with
  | zero => rfl
  | succ n ih =>
    rw [markLoop, ih]
    split <;> simp

theorem markLoop_getElem? (n : Nat) (i : Int) (mask : Mask) (hi : 0 ≤ i) (k : Nat) :
    (markLoop n i mask)[k]? =
      if i ≤ (k : Int) ∧ (k : Int) < i + n ∧ k < mask.length then some 1 else mask[k]? := by
  induction n generalizing i mask with
  | zero => rw [markLoop, if_neg (by omega)]
  | succ n ih =>
    rw [markLoop, if_pos hi, ih _ _ (by omega), List.length_set, List.getElem?_set]
    by_cases hk : i.toNat = k
    · rw [if_pos hk, if_neg (by omega)]
      by_cases hl : i.toNat < mask.length
      · rw [if_pos hl, if_pos (by omega)]
      · rw [if_neg hl, if_neg (by omega), List.getElem?_eq_none (by omega)]
    · rw [if_neg hk]
      by_cases hc : i + 1 ≤ (k : Int) ∧ (k : Int) < i + 1 + n ∧ k < mask.length
      · rw [if_pos hc, if_pos (by omega)]
      · rw [if_neg hc, if_neg (by omega)]

theorem markSpans_length (spans : List (Int × Int)) (mask : Mask) :
    (markSpans spans mask).length = mask.length := by
  induction spans generalizing mask with
  | nil => rfl
  | cons s rest ih =>
    have : markSpans (s :: rest) mask =
        markSpans rest (markLoop (s.2 + 1 - s.1).toNat s.1 mask) := rfl
    rw [this, ih, markLoop_length]

theorem covered_cons (s : Int × Int) (rest : List (Int × Int)) (k : Nat) :
    covered (s :: rest) k ↔ (s.1 ≤ (k : Int) ∧ (k : Int) ≤ s.2) ∨ covered rest k := by
  simp [covered]

theorem markSpans_getElem? (spans : List (Int × Int)) (mask : Mask)
    (h0 : ∀ s ∈ spans, 0 ≤ s.1) (k : Nat) :
    (markSpans spans mask)[k]? =
      if k < mask.length ∧ covered spans k then some 1 else mask[k]? := by
  induction spans generalizing mask with
  | nil => simp [markSpans, covered]
  | cons s rest ih =>
    have hs : markSpans (s :: rest) mask =
        markSpans rest (markLoop (s.2 + 1 - s.1).toNat s.1 mask) := rfl
    have h1 : 0 ≤ s.1 := h0 s (List.mem_cons_self _ _)
    rw [hs, ih _ (fun t ht => h0 t (List.mem_cons_of_mem _ ht)), markLoop_length,
      markLoop_getElem? _ _ _ h1]
    by_cases hr : k < mask.length ∧ covered rest k
    · rw [if_pos hr, if_pos ⟨hr.1, (covered_cons _ _ _).mpr (Or.inr hr.2)⟩]
    · rw [if_neg hr]
      by_cases hc : s.1 ≤ (k : Int) ∧ (k : Int) < s.1 + ((s.2 + 1 - s.1).toNat : Int)
          ∧ k < mask.length
      · rw [if_pos hc, if_pos ⟨hc.2.2, (covered_cons _ _ _).mpr (Or.inl ⟨hc.1, by omega⟩)⟩]
      · rw [if_neg hc, if_neg]
        rintro ⟨hl, h⟩
        rcases (covered_cons _ _ _).mp h with h | h
        · exact hc ⟨h.1, by omega, hl⟩
        · exact hr ⟨hl, h⟩

/-- The running maximum that `reduce` computes for the output length. -/
theorem foldl_max_spec (spans : List (Int × Int)) (init : Int) :
    init ≤ spans.foldl (fun agg s => max agg (s.2 + 1)) init ∧
    (∀ s ∈ spans, s.2 + 1 ≤ spans.foldl (fun agg s => max agg (s.2 + 1)) init) ∧
    (spans.foldl (fun agg s => max agg (s.2 + 1)) init = init ∨
      ∃ s ∈ spans, spans.foldl (fun agg s => max agg (s.2 + 1)) init = s.2 + 1) := by
  induction spans generalizing init with
  | nil => simp
  | cons s rest ih =>
    rw [List.foldl_cons]
    obtain ⟨h1, h2, h3⟩ := ih (max init (s.2 + 1))
    refine ⟨le_trans (le_max_left _ _) h1, ?_, ?_⟩
    · intro t ht
      rcases List.mem_cons.mp ht with rfl | ht
      · exact le_trans (le_max_right _ _) h1
      · exact h2 t ht
    · rcases h3 with h3 | ⟨t, ht, h3⟩
      · rcases max_cases init (s.2 + 1) with ⟨hm, _⟩ | ⟨hm, _⟩
        · left; rw [h3, hm]
        · right; exact ⟨s, List.mem_cons_self _ _, by rw [h3, hm]⟩
      · right; exact ⟨t, List.mem_cons_of_mem _ ht, h3⟩

/-- The length of the mask is the maximum of `0` and of `b + 1` over the
surviving spans. -/
theorem stringToMask_length_spec (str : String) (options : Option Options) :
    (∀ s ∈ survivingSpans str.data (options.getD DefaultOptions).maxMaskLength,
      s.2 + 1 ≤ ((stringToMask str options).length : Int)) ∧
    ((stringToMask str options).length = 0 ∨
      ∃ s ∈ survivingSpans str.data (options.getD DefaultOptions).maxMaskLength,
        ((stringToMask str options).length : Int) = s.2 + 1) := by
  unfold stringToMask
  simp only [markSpans_length, List.length_replicate, parseSpans_eq_survivingSpans]
  obtain ⟨h1, h2, h3⟩ :=
    foldl_max_spec (survivingSpans str.data (options.getD DefaultOptions).maxMaskLength) 0
  rw [Int.toNat_of_nonneg h1]
  refine ⟨h2, ?_⟩
  rcases h3 with h3 | h3
  · left; rw [h3]; rfl
  · right; exact h3

theorem stringToMask_getElem? (str : String) (options : Option Options) (k : Nat) :
    (stringToMask str options)[k]? =
      if k < (stringToMask str options).length then
        some (if covered (survivingSpans str.data (options.getD DefaultOptions).maxMaskLength) k
          then 1 else 0)
      else none := by
  have hlen : (stringToMask str options).length =
      ((parseSpans str.data (options.getD DefaultOptions).maxMaskLength).foldl
        (fun agg s => max agg (s.2 + 1)) (0 : Int)).toNat := by
    unfold stringToMask
    simp only [markSpans_length, List.length_replicate]
  rw [hlen]
  unfold stringToMask
  simp only []
  rw [markSpans_getElem? _ _ (by
    intro s hs
    rw [parseSpans_eq_survivingSpans] at hs
    exact (survivingSpans_bounds hs).1), List.length_replicate, List.getElem?_replicate,
    parseSpans_eq_survivingSpans]
  by_cases hk : k < ((survivingSpans str.data (options.getD DefaultOptions).maxMaskLength).foldl
        (fun agg s => max agg (s.2 + 1)) (0 : Int)).toNat
  · rw [if_pos hk, if_pos hk]
    by_cases hc : covered (survivingSpans str.data (options.getD DefaultOptions).maxMaskLength) k
    · rw [if_pos ⟨hk, hc⟩, if_pos hc]
    · rw [if_neg (fun h => hc h.2), if_neg hc]
  · rw [if_neg hk, if_neg hk, if_neg (fun h => hk h.1)]

/-- C3: `maxMaskLength` is a hard cap on the length of the parser's output.
For every input string and every integer cap `M ≥ 0` the mask is at most `M`
long, and without options it is at most 2,000,000 long. -/
theorem stringToMask_length_le_cap (str : String) (M : Int) (hM : 0 ≤ M) :
    ((stringToMask str (some ⟨M⟩)).length : Int) ≤ M ∧
    (stringToMask str none).length ≤ 2000000 := by
  constructor
  · rcases (stringToMask_length_spec str (some ⟨M⟩)).2 with h | ⟨s, hs, h⟩
    · rw [h]; exact hM
    · have := (survivingSpans_bounds hs).2.2
      rw [h]
      simp only [Option.getD_some] at this
      omega
  · rcases (stringToMask_length_spec str none).2 with h | ⟨s, hs, h⟩
    · rw [h]; omega
    · have := (survivingSpans_bounds hs).2.2
      simp only [Option.getD_none, DefaultOptions] at this
      omega

/-- The cap at work on the input `2-99` with `maxMaskLength` 5. -/
theorem stringToMask_length_le_cap_witness :
    (0 : Int) ≤ 5 ∧
    (((stringToMask "2-99" (some ⟨5⟩)).length : Int) ≤ 5 ∧
      (stringToMask "2-99" none).length ≤ 2000000) :=
  ⟨by decide, stringToMask_length_le_cap "2-99" 5 (by decide)⟩

/-- C4: `stringToMask` computes the union of its surviving spans.  With the
surviving spans those of the specification (a token of one or two parts that
all parse, converted to 0-based, clamped to `[0, maxMaskLength - 1]` and kept
when `a ≤ b`), the length of the mask is the maximum of `0` and of `b + 1`
over the surviving spans (it bounds every `b + 1`, and is `0` or one of
them), and entry `i` below the length is `1` when some surviving span
contains `i` and `0` otherwise. -/
theorem stringToMask_union_of_surviving_spans (str : String) (options : Option Options) :
    (∀ s ∈ survivingSpans str.data (options.getD DefaultOptions).maxMaskLength,
      s.2 + 1 ≤ ((stringToMask str options).length : Int)) ∧
    ((stringToMask str options).length = 0 ∨
      ∃ s ∈ survivingSpans str.data (options.getD DefaultOptions).maxMaskLength,
        ((stringToMask str options).length : Int) = s.2 + 1) ∧
    ∀ i, (stringToMask str options)[i]? =
      if i < (stringToMask str options).length then
        some (if covered (survivingSpans str.data (options.getD DefaultOptions).maxMaskLength) i
          then 1 else 0)
      else none :=
  ⟨(stringToMask_length_spec str options).1, (stringToMask_length_spec str options).2,
    stringToMask_getElem? str options⟩

/-! ## Properties of maskToString -/

/-- The state of the scanning loop after `n` iterations. -/
theorem scan_succ (mask : Mask) (n : Nat) :
    (List.range (n + 1)).foldl (scanStep mask) ([], none) =
      scanStep mask ((List.range n).foldl (scanStep mask) ([], none)) n := by
  rw [List.range_succ, List.foldl_append]
  rfl

/-- The invariant of the scanning loop after `n` iterations: the closed spans
lie below `n`, an open span starts below `n` and is set up to `n`, and the
set entries below `n` are exactly those in a closed span or in the open one. -/
theorem scan_invariant (mask : Mask) (n : Nat) :
    (∀ p ∈ ((List.range n).foldl (scanStep mask) ([], none)).1, p.1 ≤ p.2 ∧ p.2 < n) ∧
    (∀ sp, ((List.range n).foldl (scanStep mask) ([], none)).2 = some sp → sp < n) ∧
    (∀ k, k < n → (isSet mask k ↔
      (∃ p ∈ ((List.range n).foldl (scanStep mask) ([], none)).1, p.1 ≤ k ∧ k ≤ p.2) ∨
      (∃ sp, ((List.range n).foldl (scanStep mask) ([], none)).2 = some sp ∧ sp ≤ k))) := by
  induction n with
  | zero => simp
  | succ n ih =>
    rw [scan_succ]
    generalize (List.range n).foldl (scanStep mask) ([], none) = st at ih
    obtain ⟨spans, start⟩ := st
    obtain ⟨ha, hb, hc⟩ := ih
    simp only at ha hb hc
    have hlast : ∀ p ∈ spans, ¬ (p.1 ≤ n ∧ n ≤ p.2) := fun p hp h => by
      have := (ha p hp).2; omega
    cases start with
    | none =>
      by_cases hbit : truthy (mask.getD n 0) = true
      · have hst : scanStep mask (spans, none) n = (spans, some n) := by
          unfold scanStep; dsimp only; rw [if_pos hbit]
        rw [hst]
        refine ⟨fun p hp => ⟨(ha p hp).1, by have := (ha p hp).2; omega⟩, ?_, ?_⟩
        · intro sp h; cases h; omega
        · intro k hk
          by_cases hkn : k = n
          · subst hkn
            exact ⟨fun _ => Or.inr ⟨k, rfl, le_refl _⟩, fun _ => hbit⟩
          · rw [hc k (by omega)]
            constructor
            · rintro (h | ⟨sp, h, _⟩)
              · exact Or.inl h
              · cases h
            · rintro (h | ⟨sp, h, h2⟩)
              · exact Or.inl h
              · cases h; omega
      · have hst : scanStep mask (spans, none) n = (spans, none) := by
          unfold scanStep; dsimp only; rw [if_neg hbit]
        rw [hst]
        refine ⟨fun p hp => ⟨(ha p hp).1, by have := (ha p hp).2; omega⟩, ?_, ?_⟩
        · intro sp h; cases h
        · intro k hk
          by_cases hkn : k = n
          · subst hkn
            constructor
            · intro h; exact absurd h hbit
            · rintro (⟨p, hp, h⟩ | ⟨sp, h, _⟩)
              · exact absurd h (hlast p hp)
              · cases h
          · exact hc k (by omega)
    | some sp0 =>
      have hsp : sp0 < n := hb sp0 rfl
      by_cases hbit : truthy (mask.getD n 0) = true
      · have hst : scanStep mask (spans, some sp0) n = (spans, some sp0) := by
          unfold scanStep; dsimp only; rw [if_pos hbit]
        rw [hst]
        refine ⟨fun p hp => ⟨(ha p hp).1, by have := (ha p hp).2; omega⟩, ?_, ?_⟩
        · intro sp h; cases h; omega
        · intro k hk
          by_cases hkn : k = n
          · subst hkn
            exact ⟨fun _ => Or.inr ⟨sp0, rfl, by omega⟩, fun _ => hbit⟩
          · exact hc k (by omega)
      · have hst : scanStep mask (spans, some sp0) n = (spans ++ [(sp0, n - 1)], none) := by
          unfold scanStep; dsimp only; rw [if_neg hbit]
        rw [hst]
        refine ⟨?_, ?_, ?_⟩
        · intro p hp
          rcases List.mem_append.mp hp with hp | hp
          · exact ⟨(ha p hp).1, by have := (ha p hp).2; omega⟩
          · rw [List.mem_singleton] at hp
            subst hp
            exact ⟨by show sp0 ≤ n - 1; omega, by show n - 1 < n + 1; omega⟩
        · intro sp h; cases h
        · intro k hk
          by_cases hkn : k = n
          · subst hkn
            constructor
            · intro h; exact absurd h hbit
            · rintro (⟨p, hp, h⟩ | ⟨sp, h, _⟩)
              · rcases List.mem_append.mp hp with hp | hp
                · exact absurd h (hlast p hp)
                · rw [List.mem_singleton] at hp
                  subst hp
                  have : k ≤ k - 1 := h.2
                  omega
              · cases h
          · rw [hc k (by omega)]
            constructor
            · rintro (⟨p, hp, h⟩ | ⟨sp, h, h2⟩)
              · exact Or.inl ⟨p, List.mem_append_left _ hp, h⟩
              · cases h
                exact Or.inl ⟨(sp0, n - 1), List.mem_append_right _ (List.mem_singleton_self _),
                  h2, by show k ≤ n - 1; omega⟩
            · rintro (⟨p, hp, h⟩ | ⟨sp, h, _⟩)
              · rcases List.mem_append.mp hp with hp | hp
                · exact Or.inl ⟨p, hp, h⟩
                · rw [List.mem_singleton] at hp
                  subst hp
                  exact Or.inr ⟨sp0, rfl, h.1⟩
              · cases h

/-- The spans `maskToString` collects lie inside the mask and cover exactly
its set entries. -/
theorem maskSpans_spec (mask : Mask) :
    (∀ p ∈ maskSpans mask, p.1 ≤ p.2 ∧ p.2 < mask.length) ∧
    (∀ k, isSet mask k ↔ ∃ p ∈ maskSpans mask, p.1 ≤ k ∧ k ≤ p.2) := by
  obtain ⟨ha, hb, hc⟩ := scan_invariant mask mask.length
  unfold maskSpans
  simp only []
  generalize (List.range mask.length).foldl (scanStep mask) ([], none) = st at ha hb hc
  obtain ⟨spans, start⟩ := st
  simp only at ha hb hc
  cases start with
  | none =>
    simp only []
    refine ⟨ha, fun k => ?_⟩
    by_cases hk : k < mask.length
    · rw [hc k hk]
      constructor
      · rintro (h | ⟨sp, h, _⟩)
        · exact h
        · cases h
      · exact Or.inl
    · constructor
      · intro h; exact absurd (isSet_lt_length h) hk
      · rintro ⟨p, hp, h⟩
        have := (ha p hp).2; omega
  | some sp0 =>
    simp only []
    have hsp := hb sp0 rfl
    refine ⟨?_, fun k => ?_⟩
    · intro p hp
      rcases List.mem_append.mp hp with hp | hp
      · exact ha p hp
      · rw [List.mem_singleton] at hp
        subst hp
        exact ⟨by show sp0 ≤ mask.length - 1; omega, by show mask.length - 1 < mask.length; omega⟩
    · by_cases hk : k < mask.length
      · rw [hc k hk]
        constructor
        · rintro (⟨p, hp, h⟩ | ⟨sp, h, h2⟩)
          · exact ⟨p, List.mem_append_left _ hp, h⟩
          · cases h
            exact ⟨(sp0, mask.length - 1),
              List.mem_append_right _ (List.mem_singleton_self _), h2,
              by show k ≤ mask.length - 1; omega⟩
        · rintro ⟨p, hp, h⟩
          rcases List.mem_append.mp hp with hp | hp
          · exact Or.inl ⟨p, hp, h⟩
          · rw [List.mem_singleton] at hp
            subst hp
            exact Or.inr ⟨sp0, rfl, h.1⟩
      · constructor
        · intro h; exact absurd (isSet_lt_length h) hk
        · rintro ⟨p, hp, h⟩
          rcases List.mem_append.mp hp with hp | hp
          · have := (ha p hp).2; omega
          · rw [List.mem_singleton] at hp
            subst hp
            have : k ≤ mask.length - 1 := h.2
            omega

/-! ## Serialising and parsing back -/


theorem digitChar_toNat (k : Nat) (hk : k < 10) :
    (Nat.digitChar k).toNat - 48 = k ∧ isDigit (Nat.digitChar k) = true := by
  interval_cases k <;> decide

theorem digitsValue_append (a : List Char) (c : Char) :
    digitsValue (a ++ [c]) = digitsValue a * 10 + (c.toNat - 48) := by
  simp [digitsValue, List.foldl_append]

theorem toDigitsCore_spec (fuel n : Nat) (ds : List Char) (h : n < fuel) :
    ∃ pre, Nat.toDigitsCore 10 fuel n ds = pre ++ ds ∧ pre ≠ [] ∧
      (∀ c ∈ pre, isDigit c = true) ∧ digitsValue pre = n := by
  induction fuel generalizing n ds with
  | zero => omega
  | succ fuel ih =>
    rw [Nat.toDigitsCore]
    have hd := digitChar_toNat (n % 10) (Nat.mod_lt _ (by decide))
    by_cases h0 : n / 10 = 0
    · rw [if_pos h0]
      refine ⟨[Nat.digitChar (n % 10)], rfl, by simp, ?_, ?_⟩
      · intro c hc
        rw [List.mem_singleton] at hc
        rw [hc]; exact hd.2
      · have : digitsValue [Nat.digitChar (n % 10)] = (Nat.digitChar (n % 10)).toNat - 48 := by
          simp [digitsValue]
        rw [this, hd.1]
        omega
    · rw [if_neg h0]
      obtain ⟨pre, hpre, hne, hall, hval⟩ := ih (n / 10) (Nat.digitChar (n % 10) :: ds) (by omega)
      refine ⟨pre ++ [Nat.digitChar (n % 10)], by rw [hpre]; simp, by simp, ?_, ?_⟩
      · intro c hc
        rcases List.mem_append.mp hc with hc | hc
        · exact hall c hc
        · rw [List.mem_singleton] at hc
          rw [hc]; exact hd.2
      · rw [digitsValue_append, hval, hd.1]
        omega

theorem numToString_spec (n : Nat) :
    numToString n ≠ [] ∧ (∀ c ∈ numToString n, isDigit c = true) ∧
      digitsValue (numToString n) = n := by
  obtain ⟨pre, hpre, hne, hall, hval⟩ := toDigitsCore_spec (n + 1) n [] (by omega)
  have : numToString n = pre := by
    unfold numToString Nat.toDigits
    rw [hpre]; simp
  rw [this]
  exact ⟨hne, hall, hval⟩

theorem isDigit_not_ws (c : Char) (h : isDigit c = true) : isWhiteSpace c = false := by
  unfold isDigit at h
  unfold isWhiteSpace
  simp only [Bool.and_eq_true, decide_eq_true_eq] at h
  simp only [Bool.or_eq_false_iff, beq_eq_false_iff_ne, Bool.and_eq_false_iff, decide_eq_false_iff_not]
  omega

theorem dropWhile_eq_self {p : Char → Bool} (l : List Char) (h : ∀ c ∈ l, p c = false) :
    l.dropWhile p = l := by
  cases l with
  | nil => rfl
  | cons c cs => rw [List.dropWhile_cons, h c (List.mem_cons_self _ _)]; rfl

theorem takeWhile_eq_self {p : Char → Bool} (l : List Char) (h : ∀ c ∈ l, p c = true) :
    l.takeWhile p = l := by
  induction l with
  | nil => rfl
  | cons c cs ih =>
    rw [List.takeWhile_cons, h c (List.mem_cons_self _ _)]
    simp only [if_true]
    rw [ih (fun d hd => h d (List.mem_cons_of_mem _ hd))]

theorem dropWhile_ws_append (pre ds : List Char) (hpre : ∀ c ∈ pre, isWhiteSpace c = true)
    (hds : ∀ c ∈ ds, isWhiteSpace c = false) :
    (pre ++ ds).dropWhile isWhiteSpace = ds := by
  induction pre with
  | nil => exact dropWhile_eq_self ds hds
  | cons c cs ih =>
    rw [List.cons_append, List.dropWhile_cons, hpre c (List.mem_cons_self _ _)]
    simp only [if_true]
    exact ih (fun d hd => hpre d (List.mem_cons_of_mem _ hd))

theorem trim_ws_append (pre ds : List Char) (hpre : ∀ c ∈ pre, isWhiteSpace c = true)
    (hds : ∀ c ∈ ds, isWhiteSpace c = false) : trim (pre ++ ds) = ds := by
  unfold trim
  rw [dropWhile_ws_append pre ds hpre hds,
    dropWhile_eq_self ds.reverse (fun c hc => hds c (List.mem_reverse.mp hc)), List.reverse_reverse]

theorem parseInt_digits (ds : List Char) (hne : ds ≠ [])
    (hds : ∀ c ∈ ds, isDigit c = true) : parseInt ds = some (digitsValue ds : Int) := by
  unfold parseInt
  have h1 : ds.dropWhile isWhiteSpace = ds :=
    dropWhile_eq_self ds (fun c hc => isDigit_not_ws c (hds c hc))
  obtain ⟨c, cs, rfl⟩ := List.exists_cons_of_ne_nil hne
  have hc := hds c (List.mem_cons_self _ _)
  have hm : ¬ (c = '-') := by
    intro h; rw [h] at hc; exact absurd hc (by decide)
  have hp : ¬ (c = '+') := by
    intro h; rw [h] at hc; exact absurd hc (by decide)
  simp only [h1, List.head?_cons, Option.some.injEq, hm, hp, or_self, if_false]
  rw [takeWhile_eq_self _ hds]
  simp

theorem parseInt_trim_numToString (pre : List Char) (hpre : ∀ c ∈ pre, isWhiteSpace c = true)
    (n : Nat) : parseInt (trim (pre ++ numToString n)) = some (n : Int) := by
  obtain ⟨hne, hall, hval⟩ := numToString_spec n
  rw [trim_ws_append pre _ hpre (fun c hc => isDigit_not_ws c (hall c hc)),
    parseInt_digits _ hne hall, hval]

theorem splitOn_not_mem (sep : Char) (l : List Char) (h : sep ∉ l) : splitOn sep l = [l] := by
  induction l with
  | nil => rfl
  | cons c cs ih =>
    have hc : c ≠ sep := fun e => h (e ▸ List.mem_cons_self _ _)
    rw [splitOn, if_neg hc, ih (fun hm => h (List.mem_cons_of_mem _ hm))]

theorem splitOn_append_sep (sep : Char) (l r : List Char) (h : sep ∉ l) :
    splitOn sep (l ++ sep :: r) = l :: splitOn sep r := by
  induction l with
  | nil => rw [List.nil_append, splitOn, if_pos rfl]
  | cons c cs ih =>
    have hc : c ≠ sep := fun e => h (e ▸ List.mem_cons_self _ _)
    rw [List.cons_append, splitOn, if_neg hc, ih (fun hm => h (List.mem_cons_of_mem _ hm))]

theorem not_mem_of_ws (sep : Char) (hsep : isWhiteSpace sep = false) (pre : List Char)
    (hpre : ∀ c ∈ pre, isWhiteSpace c = true) : sep ∉ pre := by
  intro h
  rw [hpre sep h] at hsep
  cases hsep

theorem not_mem_numToString (sep : Char) (hsep : isDigit sep = false) (n : Nat) :
    sep ∉ numToString n := by
  intro h
  rw [(numToString_spec n).2.1 sep h] at hsep
  cases hsep

theorem not_mem_renderSpan_comma (p : Nat × Nat) : ',' ∉ renderSpan p := by
  unfold renderSpan
  have h := fun n => not_mem_numToString ',' (by decide) n
  split
  · exact h _
  · intro hm
    rcases List.mem_append.mp hm with hm | hm
    · exact h _ hm
    · rcases List.mem_cons.mp hm with hm | hm
      · exact absurd hm (by decide)
      · exact h _ hm

/-- A rendered span, after any white space, parses back to the span it
renders, clamped. -/
theorem survivingSpan_renderSpan (maxLength : Int) (pre : List Char)
    (hpre : ∀ c ∈ pre, isWhiteSpace c = true) (p : Nat × Nat) :
    survivingSpan maxLength (pre ++ renderSpan p) = clampSpan maxLength p.1 p.2 := by
  have hd := fun n => not_mem_numToString '-' (by decide) n
  have hw := not_mem_of_ws '-' (by decide) pre hpre
  unfold survivingSpan renderSpan
  by_cases he : p.1 = p.2
  · rw [if_pos he, splitOn_not_mem _ _ (by
      intro hm
      rcases List.mem_append.mp hm with hm | hm
      · exact hw hm
      · exact hd _ hm)]
    simp only [List.map_cons, List.map_nil, parseInt_trim_numToString pre hpre]
    rw [← he]
    simp
  · rw [if_neg he, ← List.append_assoc, splitOn_append_sep _ _ _ (by
      intro hm
      rcases List.mem_append.mp hm with hm | hm
      · exact hw hm
      · exact hd _ hm), splitOn_not_mem _ _ (hd _)]
    have h2 := parseInt_trim_numToString [] (by simp) (p.2 + 1)
    rw [List.nil_append] at h2
    simp only [List.map_cons, List.map_nil, parseInt_trim_numToString pre hpre, h2]
    simp

theorem clampSpan_of_bounds (maxLength : Int) (a b : Int) (h0 : 0 ≤ a) (hab : a ≤ b)
    (hb : b ≤ maxLength - 1) : clampSpan maxLength a b = some (a, b) := by
  unfold clampSpan
  rw [max_eq_right h0, min_eq_right hb, if_pos hab]

theorem splitOn_join_render (p : Nat × Nat) (ps : List (Nat × Nat)) (pre : List Char)
    (hpre : ',' ∉ pre) :
    splitOn ',' (pre ++ join [',', ' '] ((p :: ps).map renderSpan)) =
      (pre ++ renderSpan p) :: ps.map (fun q => [' '] ++ renderSpan q) := by
  induction ps generalizing p pre with
  | nil =>
    simp only [List.map_cons, List.map_nil, join]
    exact splitOn_not_mem _ _ (by
      intro hm
      rcases List.mem_append.mp hm with hm | hm
      · exact hpre hm
      · exact not_mem_renderSpan_comma p hm)
  | cons q qs ih =>
    have hj : join [',', ' '] ((p :: q :: qs).map renderSpan) =
        renderSpan p ++ ',' :: ([' '] ++ join [',', ' '] ((q :: qs).map renderSpan)) := by
      simp [join]
    rw [hj, ← List.append_assoc, splitOn_append_sep _ _ _ (by
      intro hm
      rcases List.mem_append.mp hm with hm | hm
      · exact hpre hm
      · exact not_mem_renderSpan_comma p hm), ih q [' '] (by decide)]
    rfl

/-- Parsing the serialisation of a list of spans that lie inside the cap gives
the spans back. -/
theorem survivingSpans_join_render (maxLength : Int) (spans : List (Nat × Nat))
    (h : ∀ p ∈ spans, p.1 ≤ p.2 ∧ (p.2 : Int) ≤ maxLength - 1) :
    survivingSpans (join [',', ' '] (spans.map renderSpan)) maxLength =
      spans.map (fun p => ((p.1 : Int), (p.2 : Int))) := by
  unfold survivingSpans
  cases spans with
  | nil => rfl
  | cons p ps =>
    have hs := splitOn_join_render p ps [] (by simp)
    simp only [List.nil_append] at hs
    rw [hs]
    have hone : ∀ (pre : List Char), (∀ c ∈ pre, isWhiteSpace c = true) →
        ∀ q ∈ p :: ps, survivingSpan maxLength (pre ++ renderSpan q) =
          some ((q.1 : Int), (q.2 : Int)) := by
      intro pre hpre q hq
      rw [survivingSpan_renderSpan maxLength pre hpre q]
      exact clampSpan_of_bounds _ _ _ (by omega) (by have := (h q hq).1; omega) (h q hq).2
    have h1 := hone [] (by simp) p (List.mem_cons_self _ _)
    rw [List.nil_append] at h1
    rw [List.filterMap_cons_some h1, List.map_cons]
    congr 1
    have hrest : ∀ qs : List (Nat × Nat), (∀ q ∈ qs, q ∈ p :: ps) →
        (qs.map (fun q => [' '] ++ renderSpan q)).filterMap (survivingSpan maxLength) =
          qs.map (fun p => ((p.1 : Int), (p.2 : Int))) := by
      intro qs
      induction qs with
      | nil => intro _; rfl
      | cons q qs ih =>
        intro hq
        rw [List.map_cons, List.filterMap_cons_some
          (hone [' '] (by decide) q (hq q (List.mem_cons_self _ _))), List.map_cons,
          ih (fun r hr => hq r (List.mem_cons_of_mem _ hr))]
    exact hrest ps (fun q hq => List.mem_cons_of_mem _ hq)

theorem stringToMask_isSet (str : String) (options : Option Options) (k : Nat) :
    isSet (stringToMask str options) k ↔
      k < (stringToMask str options).length ∧
        covered (survivingSpans str.data (options.getD DefaultOptions).maxMaskLength) k := by
  rw [isSet_iff_getElem?, stringToMask_getElem?]
  by_cases hk : k < (stringToMask str options).length
  · rw [if_pos hk]
    by_cases hc : covered (survivingSpans str.data (options.getD DefaultOptions).maxMaskLength) k
    · rw [if_pos hc]
      exact ⟨fun _ => ⟨hk, hc⟩, fun _ => ⟨1, rfl, by decide⟩⟩
    · rw [if_neg hc]
      constructor
      · rintro ⟨x, hx, ht⟩
        cases hx
        exact absurd ht (by decide)
      · intro h; exact absurd h.2 hc
  · rw [if_neg hk]
    constructor
    · rintro ⟨x, hx, _⟩; cases hx
    · intro h; exact absurd h.1 hk

/-- A parsed mask is empty or ends in a set entry, and fits the cap. -/
theorem stringToMask_last_set (str : String) (options : Option Options)
    (h : (stringToMask str options).length ≠ 0) :
    isSet (stringToMask str options) ((stringToMask str options).length - 1) ∧
      ((stringToMask str options).length : Int) ≤ (options.getD DefaultOptions).maxMaskLength := by
  rcases (stringToMask_length_spec str options).2 with h0 | ⟨s, hs, hl⟩
  · exact absurd h0 h
  · have hb := survivingSpans_bounds hs
    refine ⟨?_, by omega⟩
    rw [stringToMask_isSet]
    exact ⟨by omega, s, hs, by omega, by omega⟩

/-- C2: parsing undoes serialising on parser-produced masks.  For every input
string and every options (a cap `maxMaskLength`, or none for the default),
serialising the parsed mask and parsing the result under the same options
gives the same mask. -/
theorem stringToMask_maskToString_roundtrip (str : String) (options : Option Options) :
    stringToMask (maskToString (stringToMask str options)) options =
      stringToMask str options := by
  obtain ⟨hR1, hR2⟩ := maskSpans_spec (stringToMask str options)
  have hlast := stringToMask_last_set str options
  have hdata : (maskToString (stringToMask str options)).data =
      join [',', ' '] ((maskSpans (stringToMask str options)).map renderSpan) := rfl
  have hS : survivingSpans (maskToString (stringToMask str options)).data
      (options.getD DefaultOptions).maxMaskLength =
        (maskSpans (stringToMask str options)).map (fun p => ((p.1 : Int), (p.2 : Int))) := by
    rw [hdata]
    apply survivingSpans_join_render
    intro p hp
    have hp2 := hR1 p hp
    have := (hlast (by omega)).2
    exact ⟨hp2.1, by omega⟩
  have hcov : ∀ k, covered (survivingSpans (maskToString (stringToMask str options)).data
      (options.getD DefaultOptions).maxMaskLength) k ↔ isSet (stringToMask str options) k := by
    intro k
    rw [hS, hR2 k]
    unfold covered
    constructor
    · rintro ⟨s, hs, h1, h2⟩
      obtain ⟨p, hp, rfl⟩ := List.mem_map.mp hs
      exact ⟨p, hp, by simpa using h1, by simpa using h2⟩
    · rintro ⟨p, hp, h1, h2⟩
      exact ⟨_, List.mem_map.mpr ⟨p, hp, rfl⟩, by simpa using h1, by simpa using h2⟩
  obtain ⟨hL1, hL2⟩ := stringToMask_length_spec (maskToString (stringToMask str options)) options
  rw [hS] at hL1 hL2
  have hlen : (stringToMask (maskToString (stringToMask str options)) options).length =
      (stringToMask str options).length := by
    apply le_antisymm
    · rcases hL2 with h0 | ⟨s, hs, hl⟩
      · omega
      · obtain ⟨p, hp, rfl⟩ := List.mem_map.mp hs
        have := (hR1 p hp).2
        simp only at hl
        omega
    · by_cases h0 : (stringToMask str options).length = 0
      · omega
      · obtain ⟨p, hp, h1, h2⟩ := (hR2 _).mp (hlast h0).1
        have := hL1 _ (List.mem_map.mpr ⟨p, hp, rfl⟩)
        simp only at this
        omega
  apply List.ext_getElem?
  intro k
  rw [stringToMask_getElem? (maskToString (stringToMask str options)), stringToMask_getElem? str,
    hlen]
  by_cases hk : k < (stringToMask str options).length
  · rw [if_pos hk, if_pos hk]
    by_cases hc : covered (survivingSpans str.data (options.getD DefaultOptions).maxMaskLength) k
    · rw [if_pos hc, if_pos ((hcov k).mpr ((stringToMask_isSet str options k).mpr ⟨hk, hc⟩))]
    · rw [if_neg hc, if_neg (fun h => hc ((stringToMask_isSet str options k).mp
        ((hcov k).mp h)).2)]
  · rw [if_neg hk, if_neg hk]

/-! ## The runs listed by maskToString -/

/-- The second invariant of the scanning loop: the closed spans end strictly
before `n - 1`, have an unset entry on either side and are pairwise apart; an
open span starts after every closed one and has an unset entry before it. -/
theorem scan_runs_invariant (mask : Mask) (n : Nat) :
    (∀ p ∈ ((List.range n).foldl (scanStep mask) ([], none)).1,
      p.2 + 1 < n ∧ ¬ isSet mask (p.2 + 1) ∧ (p.1 = 0 ∨ ¬ isSet mask (p.1 - 1))) ∧
    ((List.range n).foldl (scanStep mask) ([], none)).1.Pairwise (fun p q => p.2 + 1 < q.1) ∧
    (∀ sp, ((List.range n).foldl (scanStep mask) ([], none)).2 = some sp →
      (∀ p ∈ ((List.range n).foldl (scanStep mask) ([], none)).1, p.2 + 1 < sp) ∧
        (sp = 0 ∨ ¬ isSet mask (sp - 1))) := by
  induction n with
  | zero => simp
  | succ n ih =>
    obtain ⟨oa, ob, oc⟩ := scan_invariant mask n
    rw [scan_succ]
    generalize (List.range n).foldl (scanStep mask) ([], none) = st at ih oa ob oc
    obtain ⟨spans, start⟩ := st
    obtain ⟨j1, j3, j4⟩ := ih
    simp only at j1 j3 j4 oa ob oc
    have keep : ∀ p ∈ spans,
        p.2 + 1 < n + 1 ∧ ¬ isSet mask (p.2 + 1) ∧ (p.1 = 0 ∨ ¬ isSet mask (p.1 - 1)) :=
      fun p hp => ⟨by have := (j1 p hp).1; omega, (j1 p hp).2⟩
    cases start with
    | none =>
      by_cases hbit : truthy (mask.getD n 0) = true
      · have hst : scanStep mask (spans, none) n = (spans, some n) := by
          unfold scanStep; dsimp only; rw [if_pos hbit]
        rw [hst]
        refine ⟨keep, j3, ?_⟩
        intro sp h
        cases h
        refine ⟨fun p hp => (j1 p hp).1, ?_⟩
        by_cases h0 : n = 0
        · exact Or.inl h0
        · right
          intro hset
          rcases (oc (n - 1) (by omega)).mp hset with ⟨p, hp, h⟩ | ⟨sp, h, _⟩
          · have := (j1 p hp).1; omega
          · cases h
      · have hst : scanStep mask (spans, none) n = (spans, none) := by
          unfold scanStep; dsimp only; rw [if_neg hbit]
        rw [hst]
        exact ⟨keep, j3, fun sp h => by cases h⟩
    | some sp0 =>
      have hsp : sp0 < n := ob sp0 rfl
      obtain ⟨j4a, j4b⟩ := j4 sp0 rfl
      by_cases hbit : truthy (mask.getD n 0) = true
      · have hst : scanStep mask (spans, some sp0) n = (spans, some sp0) := by
          unfold scanStep; dsimp only; rw [if_pos hbit]
        rw [hst]
        refine ⟨keep, j3, ?_⟩
        intro sp h
        cases h
        exact ⟨j4a, j4b⟩
      · have hst : scanStep mask (spans, some sp0) n = (spans ++ [(sp0, n - 1)], none) := by
          unfold scanStep; dsimp only; rw [if_neg hbit]
        rw [hst]
        have hn : n - 1 + 1 = n := by omega
        refine ⟨?_, ?_, fun sp h => by cases h⟩
        · intro p hp
          rcases List.mem_append.mp hp with hp | hp
          · exact keep p hp
          · rw [List.mem_singleton] at hp
            subst hp
            refine ⟨by show n - 1 + 1 < n + 1; omega, ?_, j4b⟩
            show ¬ isSet mask (n - 1 + 1)
            rw [hn]; exact hbit
        · rw [List.pairwise_append]
          refine ⟨j3, List.pairwise_singleton _ _, ?_⟩
          intro p hp q hq
          rw [List.mem_singleton] at hq
          subst hq
          exact j4a p hp

/-- The spans `maskToString` collects are maximal runs of set entries, in
ascending order with an unset entry between any two. -/
theorem maskSpans_runs (mask : Mask) :
    (∀ p ∈ maskSpans mask, IsMaximalRun mask p) ∧
    (maskSpans mask).Pairwise (fun p q => p.2 + 1 < q.1) := by
  obtain ⟨hR1, hR2⟩ := maskSpans_spec mask
  have hb := (scan_invariant mask mask.length).2.1
  obtain ⟨j1, j3, j4⟩ := scan_runs_invariant mask mask.length
  have hinside : ∀ p ∈ maskSpans mask, p.1 ≤ p.2 ∧ ∀ k, p.1 ≤ k → k ≤ p.2 → isSet mask k :=
    fun p hp => ⟨(hR1 p hp).1, fun k h1 h2 => (hR2 k).mpr ⟨p, hp, h1, h2⟩⟩
  have hout : ¬ isSet mask mask.length := fun h => by
    have := isSet_lt_length h; omega
  suffices hs : (∀ p ∈ maskSpans mask,
      ¬ isSet mask (p.2 + 1) ∧ (p.1 = 0 ∨ ¬ isSet mask (p.1 - 1))) ∧
      (maskSpans mask).Pairwise (fun p q => p.2 + 1 < q.1) from
    ⟨fun p hp => ⟨(hinside p hp).1, (hinside p hp).2, (hs.1 p hp).2, (hs.1 p hp).1⟩, hs.2⟩
  clear hinside hR1 hR2
  unfold maskSpans
  simp only []
  generalize (List.range mask.length).foldl (scanStep mask) ([], none) = st at hb j1 j3 j4
  obtain ⟨spans, start⟩ := st
  simp only at hb j1 j3 j4
  cases start with
  | none => exact ⟨fun p hp => (j1 p hp).2, j3⟩
  | some sp0 =>
    simp only []
    have hsp := hb sp0 rfl
    obtain ⟨j4a, j4b⟩ := j4 sp0 rfl
    have hn : mask.length - 1 + 1 = mask.length := by omega
    constructor
    · intro p hp
      rcases List.mem_append.mp hp with hp | hp
      · exact (j1 p hp).2
      · rw [List.mem_singleton] at hp
        subst hp
        refine ⟨?_, j4b⟩
        show ¬ isSet mask (mask.length - 1 + 1)
        rw [hn]; exact hout
    · rw [List.pairwise_append]
      refine ⟨j3, List.pairwise_singleton _ _, ?_⟩
      intro p hp q hq
      rw [List.mem_singleton] at hq
      subst hq
      exact j4a p hp

/-- Two maximal runs that share an index are the same run. -/
theorem IsMaximalRun.eq_of_overlap {mask : Mask} {p q : Nat × Nat}
    (hp : IsMaximalRun mask p) (hq : IsMaximalRun mask q) (k : Nat)
    (hkp : p.1 ≤ k ∧ k ≤ p.2) (hkq : q.1 ≤ k ∧ k ≤ q.2) : p = q := by
  obtain ⟨_, pin, pl, pr⟩ := hp
  obtain ⟨_, qin, ql, qr⟩ := hq
  have h1 : p.1 = q.1 := by
    rcases Nat.lt_trichotomy p.1 q.1 with h | h | h
    · rcases ql with ql | ql
      · omega
      · exact absurd (pin (q.1 - 1) (by omega) (by omega)) ql
    · exact h
    · rcases pl with pl | pl
      · omega
      · exact absurd (qin (p.1 - 1) (by omega) (by omega)) pl
  have h2 : p.2 = q.2 := by
    rcases Nat.lt_trichotomy p.2 q.2 with h | h | h
    · exact absurd (qin (p.2 + 1) (by omega) (by omega)) pr
    · exact h
    · exact absurd (pin (q.2 + 1) (by omega) (by omega)) qr
  exact Prod.ext h1 h2

/-- C11: `maskToString` lists exactly the maximal runs of set entries.  The
output is the `', '`-joined list of the collected spans, each rendered as
`start+1` when `start = end` and as `(start+1)-(end+1)` otherwise; the spans
are exactly the maximal runs of consecutive set entries, in ascending order
with at least one unset index between consecutive ones; together they cover
exactly the set indices; and a mask without a set entry serialises to the
empty string. -/
theorem maskToString_maximal_runs (mask : Mask) :
    maskToString mask =
      ⟨join [',', ' '] ((maskSpans mask).map (fun p =>
        if p.1 = p.2 then numToString (p.1 + 1)
        else numToString (p.1 + 1) ++ '-' :: numToString (p.2 + 1)))⟩ ∧
    (∀ p, p ∈ maskSpans mask ↔ IsMaximalRun mask p) ∧
    (maskSpans mask).Pairwise (fun p q => p.2 + 1 < q.1) ∧
    (∀ k, isSet mask k ↔ ∃ p ∈ maskSpans mask, p.1 ≤ k ∧ k ≤ p.2) ∧
    ((∀ k, ¬ isSet mask k) → maskToString mask = "") := by
  obtain ⟨hR1, hR2⟩ := maskSpans_spec mask
  obtain ⟨hrun, hpair⟩ := maskSpans_runs mask
  refine ⟨rfl, ?_, hpair, hR2, ?_⟩
  · intro p
    constructor
    · exact hrun p
    · intro hp
      obtain ⟨q, hq, h1, h2⟩ := (hR2 p.1).mp (hp.2.1 p.1 (le_refl _) hp.1)
      have := IsMaximalRun.eq_of_overlap hp (hrun q hq) p.1 ⟨le_refl _, hp.1⟩ ⟨h1, h2⟩
      rw [this]; exact hq
  · intro hnone
    have hnil : maskSpans mask = [] := by
      cases hs : maskSpans mask with
      | nil => rfl
      | cons p ps =>
        have hp : p ∈ maskSpans mask := by rw [hs]; exact List.mem_cons_self _ _
        exact absurd ((hR2 p.1).mpr ⟨p, hp, le_refl _, (hR1 p hp).1⟩) (hnone p.1)
    unfold maskToString
    rw [hnil]
    rfl

/-! ## Properties of addSelectedRows -/

theorem oldRows_v1 (rows : Option String) : oldRows ⟨rows, none, none⟩ = rows.getD "" := by
  unfold oldRows
  have h0 : isSchemaV0 ⟨rows, none, none⟩ = false := rfl
  rw [h0]
  simp only [Bool.false_eq_true, if_false]
  cases rows with
  | none => rfl
  | some s =>
    by_cases hs : s = ""
    · subst hs; rfl
    · have : stringTruthy (some s) = true := by simp [stringTruthy, hs]
      rw [if_pos this]

/-- C12: on schema v1 parameters `{rows}` (an absent `rows` reads as the empty
string) `addSelectedRows` combines by union on the input view and by
composition, old mask first, on the output view, and the result carries no
`first_row` or `last_row` field. -/
theorem addSelectedRows_v1 (rows : Option String) (addRows : String) :
    (addSelectedRows ⟨rows, none, none⟩ addRows true).rows =
      some (maskToString (orMasks (stringToMask (rows.getD "") none)
        (stringToMask addRows none))) ∧
    (addSelectedRows ⟨rows, none, none⟩ addRows false).rows =
      some (maskToString (composeMasks (stringToMask (rows.getD "") none)
        (stringToMask addRows none))) ∧
    ∀ fromInput : Bool,
      (addSelectedRows ⟨rows, none, none⟩ addRows fromInput).first_row = none ∧
      (addSelectedRows ⟨rows, none, none⟩ addRows fromInput).last_row = none := by
  refine ⟨?_, ?_, fun _ => ⟨rfl, rfl⟩⟩
  · simp only [addSelectedRows, newMask, oldRows_v1, if_true]
  · simp only [addSelectedRows, newMask, oldRows_v1, Bool.false_eq_true, if_false]

theorem not_mem_numToString_comma (n : Nat) : ',' ∉ numToString n :=
  not_mem_numToString ',' (by decide) n

/-- The token `a-b` written with two decimal numbers parses to the span
`[a - 1, b - 1]`, clamped. -/
theorem survivingSpan_range (maxLength : Int) (a b : Nat) :
    survivingSpan maxLength (numToString a ++ '-' :: numToString b) =
      clampSpan maxLength ((a : Int) - 1) ((b : Int) - 1) := by
  have hd := fun n => not_mem_numToString '-' (by decide) n
  unfold survivingSpan
  rw [splitOn_append_sep _ _ _ (hd a), splitOn_not_mem _ _ (hd b)]
  have h1 := parseInt_trim_numToString [] (by simp) a
  have h2 := parseInt_trim_numToString [] (by simp) b
  rw [List.nil_append] at h1 h2
  simp only [List.map_cons, List.map_nil, h1, h2]

/-- The token of a single decimal number `n` parses to the span
`[n - 1, n - 1]`, clamped. -/
theorem survivingSpan_single (maxLength : Int) (n : Nat) :
    survivingSpan maxLength (numToString n) =
      clampSpan maxLength ((n : Int) - 1) ((n : Int) - 1) := by
  have hd := not_mem_numToString '-' (by decide) n
  unfold survivingSpan
  rw [splitOn_not_mem _ _ hd]
  have h1 := parseInt_trim_numToString [] (by simp) n
  rw [List.nil_append] at h1
  simp only [List.map_cons, List.map_nil, h1]

theorem survivingSpans_one_token (maxLength : Int) (tok : List Char) (h : ',' ∉ tok) :
    survivingSpans tok maxLength = (survivingSpan maxLength tok).toList := by
  unfold survivingSpans
  rw [splitOn_not_mem _ _ h]
  cases hs : survivingSpan maxLength tok with
  | none => simp [List.filterMap_cons, hs]
  | some s => simp [List.filterMap_cons, hs]

theorem not_mem_range_comma (a b : Nat) : ',' ∉ numToString a ++ '-' :: numToString b := by
  intro hm
  rcases List.mem_append.mp hm with hm | hm
  · exact not_mem_numToString_comma a hm
  · rcases List.mem_cons.mp hm with hm | hm
    · exact absurd hm (by decide)
    · exact not_mem_numToString_comma b hm

theorem isSet_cons_succ (a : Nat) (m : Mask) (k : Nat) :
    isSet (a :: m) (k + 1) ↔ isSet m k := by
  simp [isSet]

theorem isSet_cons_zero (a : Nat) (m : Mask) : isSet (a :: m) 0 ↔ truthy a = true := by
  simp [isSet]

/-- Composition keeps every entry that `mask1` sets. -/
theorem isSet_composeRec_left (mask1 mask2 : Mask) (k : Nat) (h : isSet mask1 k) :
    isSet (composeRec mask1 mask2) k := by
  induction mask1 generalizing mask2 k with
  | nil => exact absurd (isSet_lt_length h) (by simp)
  | cons a m1 ih =>
    rw [composeRec]
    cases k with
    | zero =>
      rw [isSet_cons_zero] at h
      rw [if_pos h, isSet_cons_zero]
      rfl
    | succ k =>
      rw [isSet_cons_succ] at h
      split
      · rw [isSet_cons_succ]; exact ih _ _ h
      · rw [isSet_cons_succ]; exact ih _ _ h

/-- The mask of the range string `a-b` with `1 ≤ a ≤ b` within the cap has
the entries `a - 1 .. b - 1` set. -/
theorem isSet_stringToMask_range (a b : Nat) (options : Option Options)
    (ha : 1 ≤ a) (hab : a ≤ b) (hb : (b : Int) ≤ (options.getD DefaultOptions).maxMaskLength)
    (k : Nat) (h1 : a - 1 ≤ k) (h2 : k ≤ b - 1) :
    isSet (stringToMask ⟨numToString a ++ '-' :: numToString b⟩ options) k := by
  have hS : survivingSpans (numToString a ++ '-' :: numToString b)
      (options.getD DefaultOptions).maxMaskLength = [((a : Int) - 1, (b : Int) - 1)] := by
    rw [survivingSpans_one_token _ _ (not_mem_range_comma a b), survivingSpan_range,
      clampSpan_of_bounds _ _ _ (by omega) (by omega) (by omega)]
    rfl
  rw [stringToMask_isSet]
  have hlen := (stringToMask_length_spec ⟨numToString a ++ '-' :: numToString b⟩ options).1
  simp only [hS] at hlen ⊢
  have := hlen _ (List.mem_singleton_self _)
  simp only at this
  refine ⟨by omega, _, List.mem_singleton_self _, ?_, ?_⟩
  · show (a : Int) - 1 ≤ (k : Int); omega
  · show (k : Int) ≤ (b : Int) - 1; omega

theorem intToString_natCast (n : Nat) : intToString (n : Int) = numToString n := by
  unfold intToString
  rw [if_neg (by omega)]
  simp

theorem JsNumber.printed_int_natCast (n : Nat) (h : (n : Int).natAbs < 9007199254740992) :
    (JsNumber.int (n : Int) h).printed = numToString n := intToString_natCast n

/-- The model on a bound that JavaScript prints in exponent notation: with
`first_row = 1e21` (printed `1e+21`) and `last_row = 5` the old string is
`1e+21-5`, which parses as `1-5`. -/
theorem addSelectedRows_v0_exponent_text :
    addSelectedRows ⟨none, some (.other "1e+21" true), some (.int 5 (by decide))⟩ "" false =
      ⟨some "1-5", some JsNumber.zero, some JsNumber.zero⟩ := by
  decide

/-- C13 (as stated, refuted): with `first_row = 0` the guard of
`addSelectedRows` fails, so for `{first_row: 0, last_row: 3}` the result is
`{rows: ''}`: it has no `first_row` field, and the rows `1-3` that
`stringToMask('0-3')` selects are not in it. -/
theorem addSelectedRows_v0_zero_not_migrated :
    addSelectedRows ⟨none, some (.int 0 (by decide)), some (.int 3 (by decide))⟩ "" true =
      ⟨some "", none, none⟩ ∧
    (addSelectedRows ⟨none, some (.int 0 (by decide)), some (.int 3 (by decide))⟩ ""
      true).first_row ≠ some JsNumber.zero ∧
    maskToString (orMasks (stringToMask "0-3" none) (stringToMask "" none)) = "1-3" ∧
    (addSelectedRows ⟨none, some (.int 0 (by decide)), some (.int 3 (by decide))⟩ ""
      true).rows ≠
      some (maskToString (orMasks (stringToMask "0-3" none) (stringToMask "" none))) := by
  decide

/-- C13 (amended): schema v0 parameters whose `first_row` and `last_row` are
both truthy (for integers: both non-zero) and that have no (or an empty)
`rows` are migrated.  The result has `first_row = 0`, `last_row = 0`, and
`rows` is the serialisation of the combination (union or composition per
`fromInput`) of `stringToMask('{first_row}-{last_row}')`, the two bounds as
JavaScript prints them, with `stringToMask(addRows)`; and when the bounds are
integers with `1 ≤ first_row ≤ last_row ≤ 2000000` every row
`first_row .. last_row` is set in the combined mask. -/
theorem addSelectedRows_v0_migration (first last : JsNumber)
    (hf : first.truthy = true) (hl : last.truthy = true)
    (rows : Option String) (hr : rows = none ∨ rows = some "") (addRows : String)
    (fromInput : Bool) :
    ∃ combined : Mask,
      combined =
        (if fromInput then
          orMasks (stringToMask ⟨first.printed ++ '-' :: last.printed⟩ none)
            (stringToMask addRows none)
        else
          composeMasks (stringToMask ⟨first.printed ++ '-' :: last.printed⟩ none)
            (stringToMask addRows none)) ∧
      addSelectedRows ⟨rows, some first, some last⟩ addRows fromInput =
        ⟨some (maskToString combined), some JsNumber.zero, some JsNumber.zero⟩ ∧
      (∀ (a b : Int) (ha : a.natAbs < 9007199254740992) (hb : b.natAbs < 9007199254740992),
        first = .int a ha → last = .int b hb → 1 ≤ a → a ≤ b → b ≤ 2000000 →
        ∀ k : Nat, a - 1 ≤ (k : Int) → (k : Int) ≤ b - 1 → isSet combined k) := by
  refine ⟨_, rfl, ?_, ?_⟩
  · have hv : isSchemaV0 ⟨rows, some first, some last⟩ = true := by
      rcases hr with rfl | rfl <;> simp [isSchemaV0, numberTruthy, stringTruthy, hf, hl]
    have ho : oldRows ⟨rows, some first, some last⟩ =
        ⟨first.printed ++ '-' :: last.printed⟩ := by
      unfold oldRows
      rw [if_pos hv]
      simp [join]
    simp only [addSelectedRows, newMask, ho, hv, if_true]
  · intro a b ha hb hfa hlb h1 h2 h3 k hk1 hk2
    subst hfa hlb
    obtain ⟨a, rfl⟩ := Int.eq_ofNat_of_zero_le (by omega : 0 ≤ a)
    obtain ⟨b, rfl⟩ := Int.eq_ofNat_of_zero_le (by omega : 0 ≤ b)
    rw [JsNumber.printed_int_natCast, JsNumber.printed_int_natCast]
    have hset := isSet_stringToMask_range a b none (by omega) (by omega)
      (by simp only [Option.getD_none, DefaultOptions]; omega) k (by omega) (by omega)
    cases fromInput with
    | true =>
      simp only [if_true]
      rw [isSet_orMasks]
      exact Or.inl hset
    | false =>
      simp only [Bool.false_eq_true, if_false]
      rw [composeMasks_eq_composeRec]
      exact isSet_composeRec_left _ _ k hset

/-- The migration at the parameters `{rows: '', first_row: 1, last_row: 3}`
with `addRows = '2-3'` on the output view: the result is
`{first_row: 0, last_row: 0, rows: '1-3, 5-6'}`. -/
theorem addSelectedRows_v0_migration_witness :
    (JsNumber.int 1 (by decide)).truthy = true ∧ (JsNumber.int 3 (by decide)).truthy = true ∧
    addSelectedRows ⟨some "", some (.int 1 (by decide)), some (.int 3 (by decide))⟩ "2-3" false =
      ⟨some "1-3, 5-6", some JsNumber.zero, some JsNumber.zero⟩ ∧
    ∃ combined : Mask,
      combined =
        (if false = true then
          orMasks (stringToMask ⟨(JsNumber.int 1 (by decide)).printed ++
            '-' :: (JsNumber.int 3 (by decide)).printed⟩ none) (stringToMask "2-3" none)
        else
          composeMasks (stringToMask ⟨(JsNumber.int 1 (by decide)).printed ++
            '-' :: (JsNumber.int 3 (by decide)).printed⟩ none) (stringToMask "2-3" none)) ∧
      addSelectedRows ⟨some "", some (.int 1 (by decide)), some (.int 3 (by decide))⟩ "2-3"
          false =
        ⟨some (maskToString combined), some JsNumber.zero, some JsNumber.zero⟩ ∧
      (∀ (a b : Int) (ha : a.natAbs < 9007199254740992) (hb : b.natAbs < 9007199254740992),
        JsNumber.int 1 (by decide) = .int a ha → JsNumber.int 3 (by decide) = .int b hb →
        1 ≤ a → a ≤ b → b ≤ 2000000 →
        ∀ k : Nat, a - 1 ≤ (k : Int) → (k : Int) ≤ b - 1 → isSet combined k) :=
  ⟨by decide, by decide, by decide,
    addSelectedRows_v0_migration (.int 1 (by decide)) (.int 3 (by decide)) (by decide)
      (by decide) (some "") (Or.inr rfl) "2-3" false⟩

/-! ## Parsing a comma-joined string -/

theorem splitOn_ne_nil (sep : Char) (l : List Char) : splitOn sep l ≠ [] := by
  induction l with
  | nil => simp [splitOn]
  | cons c cs ih =>
    rw [splitOn]
    split
    · simp
    · split <;> simp

/-- Splitting distributes over joining two strings with the separator. -/
theorem splitOn_append (sep : Char) (l r : List Char) :
    splitOn sep (l ++ sep :: r) = splitOn sep l ++ splitOn sep r := by
  induction l with
  | nil => simp [splitOn]
  | cons c cs ih =>
    rw [List.cons_append, splitOn, splitOn, ih]
    by_cases hc : c = sep
    · rw [if_pos hc, if_pos hc]; rfl
    · rw [if_neg hc, if_neg hc]
      obtain ⟨p, ps, hp⟩ := List.exists_cons_of_ne_nil (splitOn_ne_nil sep cs)
      rw [hp]
      rfl

theorem survivingSpans_append (maxLength : Int) (l r : List Char) :
    survivingSpans (l ++ ',' :: r) maxLength =
      survivingSpans l maxLength ++ survivingSpans r maxLength := by
  unfold survivingSpans
  rw [splitOn_append, List.filterMap_append]

/-- The mask depends on the input string through its surviving spans only. -/
theorem stringToMask_congr (s1 s2 : String) (options : Option Options)
    (h : survivingSpans s1.data (options.getD DefaultOptions).maxMaskLength =
      survivingSpans s2.data (options.getD DefaultOptions).maxMaskLength) :
    stringToMask s1 options = stringToMask s2 options := by
  unfold stringToMask
  simp only [parseSpans_eq_survivingSpans, h]

theorem stringToMask_isBool (str : String) (options : Option Options) :
    IsBoolMask (stringToMask str options) := by
  intro x hx
  obtain ⟨k, hk⟩ := List.mem_iff_getElem?.mp hx
  rw [stringToMask_getElem?] at hk
  split at hk
  · split at hk
    · right; cases hk; rfl
    · left; cases hk; rfl
  · cases hk

theorem orMasks_isBool (mask1 mask2 : Mask) (h1 : IsBoolMask mask1) (h2 : IsBoolMask mask2) :
    IsBoolMask (orMasks mask1 mask2) := by
  have hj : ∀ a b : Mask, IsBoolMask a → IsBoolMask b → ∀ k,
      jsOr (a.getD k 0) (b.getD k 0) = 0 ∨ jsOr (a.getD k 0) (b.getD k 0) = 1 := by
    intro a b ha hb k
    rcases ha.getD k with h | h <;> rcases hb.getD k with h' | h' <;> rw [h, h'] <;> decide
  intro x hx
  obtain ⟨k, hk⟩ := List.mem_iff_getElem?.mp hx
  rw [orMasks_getElem?] at hk
  split at hk
  · split at hk
    · cases hk; exact hj _ _ h2 h1 k
    · exact h2 x (List.getElem?_mem hk)
  · split at hk
    · cases hk; exact hj _ _ h1 h2 k
    · exact h1 x (List.getElem?_mem hk)

theorem IsBoolMask.getElem?_eq {mask : Mask} (h : IsBoolMask mask) (k : Nat) :
    mask[k]? = if k < mask.length then some (if isSet mask k then 1 else 0) else none := by
  by_cases hk : k < mask.length
  · rw [if_pos hk, List.getElem?_eq_getElem hk]
    have hx := h mask[k] (List.getElem_mem _)
    have hg : mask.getD k 0 = mask[k] := by
      rw [List.getD_eq_getElem?_getD, List.getElem?_eq_getElem hk]; rfl
    rcases hx with hx | hx
    · have hs : ¬ isSet mask k := by unfold isSet; rw [hg, hx]; decide
      rw [if_neg hs, hx]
    · have hs : isSet mask k := by unfold isSet; rw [hg, hx]; rfl
      rw [if_pos hs, hx]
  · rw [if_neg hk, List.getElem?_eq_none (by omega)]

/-- Two 0/1 masks of the same length with the same set entries are equal. -/
theorem IsBoolMask.ext {a b : Mask} (ha : IsBoolMask a) (hb : IsBoolMask b)
    (hlen : a.length = b.length) (hset : ∀ k, isSet a k ↔ isSet b k) : a = b := by
  apply List.ext_getElem?
  intro k
  rw [ha.getElem?_eq, hb.getElem?_eq, hlen]
  by_cases hk : k < b.length
  · rw [if_pos hk, if_pos hk]
    by_cases hs : isSet a k
    · rw [if_pos hs, if_pos ((hset k).mp hs)]
    · rw [if_neg hs, if_neg (fun h => hs ((hset k).mpr h))]
  · rw [if_neg hk, if_neg hk]

theorem covered_append (s1 s2 : List (Int × Int)) (k : Nat) :
    covered (s1 ++ s2) k ↔ covered s1 k ∨ covered s2 k := by
  unfold covered
  constructor
  · rintro ⟨s, hs, h⟩
    rcases List.mem_append.mp hs with hs | hs
    · exact Or.inl ⟨s, hs, h⟩
    · exact Or.inr ⟨s, hs, h⟩
  · rintro (⟨s, hs, h⟩ | ⟨s, hs, h⟩)
    · exact ⟨s, List.mem_append_left _ hs, h⟩
    · exact ⟨s, List.mem_append_right _ hs, h⟩

/-- A span that covers `k` reaches below the length of the mask. -/
theorem covered_lt_length (str : String) (options : Option Options) (k : Nat)
    (h : covered (survivingSpans str.data (options.getD DefaultOptions).maxMaskLength) k) :
    k < (stringToMask str options).length := by
  obtain ⟨s, hs, _, h2⟩ := h
  have := (stringToMask_length_spec str options).1 s hs
  omega

/-- C19: parsing distributes over comma-joining.  For all strings `s1`, `s2`
and every options value, the mask of `s1 + ',' + s2` is the `orMasks` of the
masks of `s1` and of `s2`; so a token that is discarded never changes what
the other tokens select. -/
theorem stringToMask_comma_join (s1 s2 : String) (options : Option Options) :
    stringToMask (s1 ++ "," ++ s2) options =
      orMasks (stringToMask s1 options) (stringToMask s2 options) := by
  have hdata : (s1 ++ "," ++ s2).data = s1.data ++ ',' :: s2.data := by
    simp [String.data_append]
  have hS : survivingSpans (s1 ++ "," ++ s2).data (options.getD DefaultOptions).maxMaskLength
      = survivingSpans s1.data (options.getD DefaultOptions).maxMaskLength ++
        survivingSpans s2.data (options.getD DefaultOptions).maxMaskLength := by
    rw [hdata, survivingSpans_append]
  have hset : ∀ k, isSet (stringToMask (s1 ++ "," ++ s2) options) k ↔
      isSet (orMasks (stringToMask s1 options) (stringToMask s2 options)) k := by
    intro k
    rw [isSet_orMasks, stringToMask_isSet, stringToMask_isSet, stringToMask_isSet, hS,
      covered_append]
    constructor
    · rintro ⟨_, h | h⟩
      · exact Or.inl ⟨covered_lt_length s1 options k h, h⟩
      · exact Or.inr ⟨covered_lt_length s2 options k h, h⟩
    · rintro (⟨_, h⟩ | ⟨_, h⟩)
      · have hc : covered (survivingSpans (s1 ++ "," ++ s2).data
            (options.getD DefaultOptions).maxMaskLength) k := by
          rw [hS, covered_append]; exact Or.inl h
        exact ⟨covered_lt_length _ options k hc, Or.inl h⟩
      · have hc : covered (survivingSpans (s1 ++ "," ++ s2).data
            (options.getD DefaultOptions).maxMaskLength) k := by
          rw [hS, covered_append]; exact Or.inr h
        exact ⟨covered_lt_length _ options k hc, Or.inr h⟩
  have hlen : (stringToMask (s1 ++ "," ++ s2) options).length =
      (orMasks (stringToMask s1 options) (stringToMask s2 options)).length := by
    rw [orMasks_length]
    obtain ⟨hU, hA⟩ := stringToMask_length_spec (s1 ++ "," ++ s2) options
    obtain ⟨hU1, hA1⟩ := stringToMask_length_spec s1 options
    obtain ⟨hU2, hA2⟩ := stringToMask_length_spec s2 options
    rw [hS] at hU hA
    apply le_antisymm
    · rcases hA with h0 | ⟨s, hs, hl⟩
      · omega
      · rcases List.mem_append.mp hs with hs | hs
        · have := hU1 s hs; omega
        · have := hU2 s hs; omega
    · apply max_le
      · rcases hA1 with h0 | ⟨s, hs, hl⟩
        · omega
        · have := hU s (List.mem_append_left _ hs); omega
      · rcases hA2 with h0 | ⟨s, hs, hl⟩
        · omega
        · have := hU s (List.mem_append_right _ hs); omega
  exact IsBoolMask.ext (stringToMask_isBool _ _)
    (orMasks_isBool _ _ (stringToMask_isBool _ _) (stringToMask_isBool _ _)) hlen hset

/-! ## The cap on spans -/

theorem clampSpan_none_of_lt (maxLength a b : Int) (h : maxLength - 1 < a) :
    clampSpan maxLength a b = none := by
  unfold clampSpan
  rw [if_neg]
  intro hc
  have h1 : a ≤ max 0 a := le_max_right _ _
  have h2 : min (maxLength - 1) b ≤ maxLength - 1 := min_le_left _ _
  omega

theorem stringToMask_eq_nil_of_spans (str : String) (options : Option Options)
    (h : survivingSpans str.data (options.getD DefaultOptions).maxMaskLength = []) :
    stringToMask str options = [] := by
  rcases (stringToMask_length_spec str options).2 with h0 | ⟨s, hs, _⟩
  · exact List.eq_nil_of_length_eq_zero h0
  · rw [h] at hs; cases hs

/-- C14: the cap truncates a range that starts within it and drops a span
that starts beyond it.  For all integers `1 ≤ a ≤ M ≤ b` the mask of `a-b`
under the cap `M` has length exactly `M`, with the entries `a-1 .. M-1` set
and the earlier ones unset.  For `n > M` the token `n`, and every range `lo-hi`
with `lo > M`, yields no span: alone it parses to the empty mask, and appended
to any string it leaves the mask of that string unchanged.  In particular
`1-999999999999` parses to a mask of length 2,000,000 and `999999999` to the
empty mask. -/
theorem stringToMask_cap_truncates :
    (∀ (a b : Nat) (M : Int), 1 ≤ a → (a : Int) ≤ M → M ≤ (b : Int) →
      ((stringToMask ⟨numToString a ++ '-' :: numToString b⟩ (some ⟨M⟩)).length : Int) = M ∧
      ∀ i : Nat, (i : Int) < M →
        (stringToMask ⟨numToString a ++ '-' :: numToString b⟩ (some ⟨M⟩))[i]? =
          some (if a - 1 ≤ i then 1 else 0)) ∧
    (∀ (n : Nat) (M : Int) (str : String), M < (n : Int) →
      survivingSpan M (numToString n) = none ∧
      stringToMask ⟨numToString n⟩ (some ⟨M⟩) = [] ∧
      stringToMask (str ++ "," ++ ⟨numToString n⟩) (some ⟨M⟩) = stringToMask str (some ⟨M⟩)) ∧
    (∀ (lo hi : Nat) (M : Int) (str : String), M < (lo : Int) →
      survivingSpan M (numToString lo ++ '-' :: numToString hi) = none ∧
      stringToMask ⟨numToString lo ++ '-' :: numToString hi⟩ (some ⟨M⟩) = [] ∧
      stringToMask (str ++ "," ++ ⟨numToString lo ++ '-' :: numToString hi⟩) (some ⟨M⟩) =
        stringToMask str (some ⟨M⟩)) ∧
    (stringToMask "1-999999999999" none).length = 2000000 ∧
    stringToMask "999999999" none = [] := by
  have part1 : ∀ (a b : Nat) (M : Int), 1 ≤ a → (a : Int) ≤ M → M ≤ (b : Int) →
      ((stringToMask ⟨numToString a ++ '-' :: numToString b⟩ (some ⟨M⟩)).length : Int) = M ∧
      ∀ i : Nat, (i : Int) < M →
        (stringToMask ⟨numToString a ++ '-' :: numToString b⟩ (some ⟨M⟩))[i]? =
          some (if a - 1 ≤ i then 1 else 0) := by
    intro a b M h1 h2 h3
    have hS : survivingSpans (numToString a ++ '-' :: numToString b) M =
        [((a : Int) - 1, M - 1)] := by
      rw [survivingSpans_one_token _ _ (not_mem_range_comma a b), survivingSpan_range]
      unfold clampSpan
      rw [max_eq_right (by omega), min_eq_left (by omega), if_pos (by omega)]
      rfl
    obtain ⟨hU, hA⟩ := stringToMask_length_spec ⟨numToString a ++ '-' :: numToString b⟩
      (some ⟨M⟩)
    simp only [Option.getD_some, hS, List.mem_singleton, forall_eq, exists_eq_left] at hU hA
    have hlen : ((stringToMask ⟨numToString a ++ '-' :: numToString b⟩
        (some ⟨M⟩)).length : Int) = M := by
      rcases hA with h0 | h0
      · rw [h0] at hU; simp at hU; omega
      · omega
    refine ⟨hlen, fun i hi => ?_⟩
    rw [stringToMask_getElem?, if_pos (by omega)]
    simp only [Option.getD_some, hS]
    by_cases hc : a - 1 ≤ i
    · rw [if_pos hc, if_pos]
      exact ⟨_, List.mem_singleton_self _, by show (a : Int) - 1 ≤ (i : Int); omega,
        by show (i : Int) ≤ M - 1; omega⟩
    · rw [if_neg hc, if_neg]
      rintro ⟨s, hs, hs1, _⟩
      rw [List.mem_singleton] at hs
      subst hs
      have : (a : Int) - 1 ≤ (i : Int) := hs1
      omega
  have drop : ∀ (tok : List Char) (M : Int) (str : String), ',' ∉ tok →
      survivingSpan M tok = none →
      stringToMask ⟨tok⟩ (some ⟨M⟩) = [] ∧
      stringToMask (str ++ "," ++ ⟨tok⟩) (some ⟨M⟩) = stringToMask str (some ⟨M⟩) := by
    intro tok M str hc hn
    have hS : survivingSpans tok M = [] := by
      rw [survivingSpans_one_token _ _ hc, hn]; rfl
    constructor
    · exact stringToMask_eq_nil_of_spans _ _ hS
    · apply stringToMask_congr
      have hdata : (str ++ "," ++ (⟨tok⟩ : String)).data = str.data ++ ',' :: tok := by
        simp [String.data_append]
      simp only [Option.getD_some]
      rw [hdata, survivingSpans_append, hS, List.append_nil]
  refine ⟨part1, ?_, ?_, ?_, by decide⟩
  · intro n M str h
    have hn : survivingSpan M (numToString n) = none := by
      rw [survivingSpan_single]
      exact clampSpan_none_of_lt _ _ _ (by omega)
    exact ⟨hn, drop _ M str (not_mem_numToString_comma n) hn⟩
  · intro lo hi M str h
    have hn : survivingSpan M (numToString lo ++ '-' :: numToString hi) = none := by
      rw [survivingSpan_range]
      exact clampSpan_none_of_lt _ _ _ (by omega)
    exact ⟨hn, drop _ M str (not_mem_range_comma lo hi) hn⟩
  · have h := (part1 1 999999999999 2000000 (by decide) (by decide) (by decide)).1
    have hs : (⟨numToString 1 ++ '-' :: numToString 999999999999⟩ : String) =
        "1-999999999999" := by decide
    have ho : (stringToMask ⟨numToString 1 ++ '-' :: numToString 999999999999⟩ none) =
        stringToMask ⟨numToString 1 ++ '-' :: numToString 999999999999⟩ (some ⟨2000000⟩) := rfl
    rw [← hs, ho]
    omega

/-- The cap at work on `2-99` and on `2, 99` with `maxMaskLength` 5, the two
cases of the test suite. -/
theorem stringToMask_cap_truncates_witness :
    (((stringToMask ⟨numToString 2 ++ '-' :: numToString 99⟩ (some ⟨5⟩)).length : Int) = 5 ∧
      ∀ i : Nat, (i : Int) < 5 →
        (stringToMask ⟨numToString 2 ++ '-' :: numToString 99⟩ (some ⟨5⟩))[i]? =
          some (if 2 - 1 ≤ i then 1 else 0)) ∧
    stringToMask ("2" ++ "," ++ ⟨numToString 99⟩) (some ⟨5⟩) = stringToMask "2" (some ⟨5⟩) :=
  ⟨stringToMask_cap_truncates.1 2 99 5 (by decide) (by decide) (by decide),
    (stringToMask_cap_truncates.2.1 99 5 "2" (by decide)).2.2⟩

/-! ## Fractional parts -/

theorem takeWhile_append_stop {p : Char → Bool} (ds : List Char) (c : Char) (rest : List Char)
    (hds : ∀ d ∈ ds, p d = true) (hc : p c = false) :
    (ds ++ c :: rest).takeWhile p = ds := by
  induction ds with
  | nil => rw [List.nil_append, List.takeWhile_cons, hc]; rfl
  | cons d ds ih =>
    rw [List.cons_append, List.takeWhile_cons, hds d (List.mem_cons_self _ _)]
    simp only [if_true]
    rw [ih (fun e he => hds e (List.mem_cons_of_mem _ he))]

/-- The call `parseInt` reads the leading digits and stops at the first
character that is not a digit. -/
theorem parseInt_digits_stop (ds : List Char) (hne : ds ≠ [])
    (hds : ∀ c ∈ ds, isDigit c = true) (c : Char) (hc : isDigit c = false)
    (rest : List Char) : parseInt (ds ++ c :: rest) = some (digitsValue ds : Int) := by
  unfold parseInt
  obtain ⟨d, ds', rfl⟩ := List.exists_cons_of_ne_nil hne
  have hd := hds d (List.mem_cons_self _ _)
  have h1 : (d :: (ds' ++ c :: rest)).dropWhile isWhiteSpace = d :: (ds' ++ c :: rest) := by
    rw [List.dropWhile_cons, isDigit_not_ws d hd]; rfl
  have ht : (d :: (ds' ++ c :: rest)).takeWhile isDigit = d :: ds' := by
    have := takeWhile_append_stop (d :: ds') c rest hds hc
    rwa [List.cons_append] at this
  have hm : ¬ (d = '-') := by
    intro h; rw [h] at hd; exact absurd hd (by decide)
  have hp : ¬ (d = '+') := by
    intro h; rw [h] at hd; exact absurd hd (by decide)
  rw [List.cons_append]
  simp only [h1, List.head?_cons, Option.some.injEq, hm, hp, or_self, if_false, ht]
  simp

/-- A numeric part written `n.f`, with `f` a string of digits, is read as `n`. -/
theorem parseInt_trim_fraction (n : Nat) (f : List Char) (hf : ∀ c ∈ f, isDigit c = true) :
    parseInt (trim (numToString n ++ '.' :: f)) = some (n : Int) := by
  obtain ⟨hne, hall, hval⟩ := numToString_spec n
  have hnows : ∀ c ∈ numToString n ++ '.' :: f, isWhiteSpace c = false := by
    intro c hc
    rcases List.mem_append.mp hc with hc | hc
    · exact isDigit_not_ws c (hall c hc)
    · rcases List.mem_cons.mp hc with hc | hc
      · rw [hc]; decide
      · exact isDigit_not_ws c (hf c hc)
  have ht := trim_ws_append [] _ (by simp) hnows
  rw [List.nil_append] at ht
  rw [ht, parseInt_digits_stop _ hne hall '.' (by decide), hval]

theorem not_mem_fraction (sep : Char) (hsep : isDigit sep = false) (hdot : sep ≠ '.')
    (n : Nat) (f : List Char) (hf : ∀ c ∈ f, isDigit c = true) :
    sep ∉ numToString n ++ '.' :: f := by
  intro hm
  rcases List.mem_append.mp hm with hm | hm
  · exact not_mem_numToString sep hsep n hm
  · rcases List.mem_cons.mp hm with hm | hm
    · exact hdot hm
    · rw [hf sep hm] at hsep; cases hsep

theorem survivingSpan_fraction_single (maxLength : Int) (n : Nat) (f : List Char)
    (hf : ∀ c ∈ f, isDigit c = true) :
    survivingSpan maxLength (numToString n ++ '.' :: f) =
      survivingSpan maxLength (numToString n) := by
  rw [survivingSpan_single]
  unfold survivingSpan
  rw [splitOn_not_mem _ _ (not_mem_fraction '-' (by decide) (by decide) n f hf)]
  simp only [List.map_cons, List.map_nil, parseInt_trim_fraction n f hf]

theorem survivingSpan_fraction_range (maxLength : Int) (a b : Nat) (f g : List Char)
    (hf : ∀ c ∈ f, isDigit c = true) (hg : ∀ c ∈ g, isDigit c = true) :
    survivingSpan maxLength ((numToString a ++ '.' :: f) ++ '-' :: (numToString b ++ '.' :: g)) =
      survivingSpan maxLength (numToString a ++ '-' :: numToString b) := by
  rw [survivingSpan_range]
  unfold survivingSpan
  rw [splitOn_append_sep _ _ _ (not_mem_fraction '-' (by decide) (by decide) a f hf),
    splitOn_not_mem _ _ (not_mem_fraction '-' (by decide) (by decide) b g hg)]
  simp only [List.map_cons, List.map_nil, parseInt_trim_fraction a f hf,
    parseInt_trim_fraction b g hg]

/-- C15: fractional parts are truncated, never rounded up.  For every
non-negative integer `n` and every string `f` of decimal digits the part `n.f`
is read as `n`; hence the mask of `n.f` is the mask of `n` and the mask of
`a.f-b.g` is the mask of `a-b`, under any options; and `1.2, 3.1-4.8` selects
exactly the rows 1, 3 and 4. -/
theorem stringToMask_fraction_truncated :
    (∀ (n : Nat) (f : List Char), (∀ c ∈ f, isDigit c = true) →
      parseInt (trim (numToString n ++ '.' :: f)) = some (n : Int)) ∧
    (∀ (n : Nat) (f : List Char) (options : Option Options), (∀ c ∈ f, isDigit c = true) →
      stringToMask ⟨numToString n ++ '.' :: f⟩ options =
        stringToMask ⟨numToString n⟩ options) ∧
    (∀ (a b : Nat) (f g : List Char) (options : Option Options),
      (∀ c ∈ f, isDigit c = true) → (∀ c ∈ g, isDigit c = true) →
      stringToMask ⟨(numToString a ++ '.' :: f) ++ '-' :: (numToString b ++ '.' :: g)⟩ options =
        stringToMask ⟨numToString a ++ '-' :: numToString b⟩ options) ∧
    stringToMask "1.2, 3.1-4.8" none = MASK [1, 0, 1, 1] := by
  refine ⟨parseInt_trim_fraction, ?_, ?_, by decide⟩
  · intro n f options hf
    apply stringToMask_congr
    show survivingSpans (numToString n ++ '.' :: f) _ = survivingSpans (numToString n) _
    rw [survivingSpans_one_token _ _ (not_mem_fraction ',' (by decide) (by decide) n f hf),
      survivingSpans_one_token _ _ (not_mem_numToString_comma n),
      survivingSpan_fraction_single _ n f hf]
  · intro a b f g options hf hg
    apply stringToMask_congr
    show survivingSpans ((numToString a ++ '.' :: f) ++ '-' :: (numToString b ++ '.' :: g)) _ =
      survivingSpans (numToString a ++ '-' :: numToString b) _
    have hc : ',' ∉ (numToString a ++ '.' :: f) ++ '-' :: (numToString b ++ '.' :: g) := by
      intro hm
      rcases List.mem_append.mp hm with hm | hm
      · exact not_mem_fraction ',' (by decide) (by decide) a f hf hm
      · rcases List.mem_cons.mp hm with hm | hm
        · exact absurd hm (by decide)
        · exact not_mem_fraction ',' (by decide) (by decide) b g hg hm
    rw [survivingSpans_one_token _ _ hc,
      survivingSpans_one_token _ _ (not_mem_range_comma a b),
      survivingSpan_fraction_range _ a b f g hf hg]

/-- The truncation at `3.9` and at `3.1-4.8`: the same masks as `3` and `3-4`. -/
theorem stringToMask_fraction_truncated_witness :
    stringToMask ⟨numToString 3 ++ '.' :: ['9']⟩ none = stringToMask ⟨numToString 3⟩ none ∧
    stringToMask ⟨(numToString 3 ++ '.' :: ['1']) ++ '-' :: (numToString 4 ++ '.' :: ['8'])⟩ none
      = stringToMask ⟨numToString 3 ++ '-' :: numToString 4⟩ none :=
  ⟨stringToMask_fraction_truncated.2.1 3 ['9'] none (by decide),
    stringToMask_fraction_truncated.2.2.1 3 4 ['1'] ['8'] none (by decide) (by decide)⟩

/-! ## Minimal form, iteration count and associativity of composeMasks -/

/-! minimal form -/

theorem isMinimal_iff_getLast? (mask : Mask) :
    IsMinimal mask ↔ ∀ x, mask.getLast? = some x → truthy x = true := by
  unfold IsMinimal
  cases mask with
  | nil => simp
  | cons a m =>
    rw [isSet_iff_getElem?, List.getLast?_eq_getElem?]
    constructor
    · rintro (h | ⟨x, hx, ht⟩)
      · cases h
      · intro y hy
        rw [hx] at hy; cases hy; exact ht
    · intro h
      right
      have hlt : (a :: m).length - 1 < (a :: m).length := by simp
      exact ⟨_, List.getElem?_eq_getElem hlt, h _ (List.getElem?_eq_getElem hlt)⟩

theorem composeRec_ne_nil (a : Nat) (m1 m2 : Mask) : composeRec (a :: m1) m2 ≠ [] := by
  rw [composeRec]
  split <;> simp

theorem getLast?_tail_of (m : Mask) (h : ∀ x, m.getLast? = some x → truthy x = true) :
    ∀ x, m.tail.getLast? = some x → truthy x = true := by
  cases m with
  | nil => exact h
  | cons a t =>
    cases t with
    | nil => intro x hx; cases hx
    | cons b r =>
      intro x hx
      exact h x (by rw [List.getLast?_cons_cons]; exact hx)

theorem getLast?_cons_of (x : Nat) (l : Mask) (hl : ∀ y, l.getLast? = some y → truthy y = true)
    (hx : l = [] → truthy x = true) :
    ∀ y, (x :: l).getLast? = some y → truthy y = true := by
  cases l with
  | nil =>
    intro y hy
    simp at hy
    rw [← hy]; exact hx rfl
  | cons b r =>
    intro y hy
    rw [List.getLast?_cons_cons] at hy
    exact hl y hy

theorem composeRec_minimal (m1 m2 : Mask)
    (h1 : ∀ x, m1.getLast? = some x → truthy x = true)
    (h2 : ∀ x, m2.getLast? = some x → truthy x = true) :
    ∀ x, (composeRec m1 m2).getLast? = some x → truthy x = true := by
  induction m1 generalizing m2 with
  | nil => exact h2
  | cons a m ih =>
    have hm : ∀ x, m.getLast? = some x → truthy x = true := getLast?_tail_of (a :: m) h1
    rw [composeRec]
    by_cases ha : truthy a = true
    · rw [if_pos ha]
      exact getLast?_cons_of 1 _ (ih m2 hm h2) (fun _ => rfl)
    · rw [if_neg ha]
      apply getLast?_cons_of _ _ (ih m2.tail hm (getLast?_tail_of m2 h2))
      intro hnil
      cases m with
      | nil => exact absurd (h1 a rfl) ha
      | cons b r => exact absurd hnil (composeRec_ne_nil b r _)

theorem stringToMask_minimal (str : String) (options : Option Options) :
    IsMinimal (stringToMask str options) := by
  unfold IsMinimal
  by_cases h : (stringToMask str options).length = 0
  · left; exact List.eq_nil_of_length_eq_zero h
  · right; exact (stringToMask_last_set str options h).1

theorem orMasks_minimal (mask1 mask2 : Mask) (h1 : IsMinimal mask1) (h2 : IsMinimal mask2) :
    IsMinimal (orMasks mask1 mask2) := by
  unfold IsMinimal
  by_cases h : (orMasks mask1 mask2).length = 0
  · left; exact List.eq_nil_of_length_eq_zero h
  · right
    rw [orMasks_length] at h ⊢
    rw [isSet_orMasks]
    rcases le_total mask1.length mask2.length with hle | hle
    · rw [max_eq_right hle] at h ⊢
      rcases h2 with h2 | h2
      · rw [h2] at h; exact absurd rfl h
      · exact Or.inr h2
    · rw [max_eq_left hle] at h ⊢
      rcases h1 with h1 | h1
      · rw [h1] at h; exact absurd rfl h
      · exact Or.inl h1

/-- C16: masks stay in minimal-length form.  Every mask `stringToMask`
returns is empty or has its last entry set, and when both arguments are in
that form so are `orMasks (mask1, mask2)` and `composeMasks (mask1, mask2)`. -/
theorem masks_stay_minimal :
    (∀ (str : String) (options : Option Options), IsMinimal (stringToMask str options)) ∧
    (∀ mask1 mask2 : Mask, IsMinimal mask1 → IsMinimal mask2 →
      IsMinimal (orMasks mask1 mask2) ∧ IsMinimal (composeMasks mask1 mask2)) := by
  refine ⟨stringToMask_minimal, fun mask1 mask2 h1 h2 => ⟨orMasks_minimal _ _ h1 h2, ?_⟩⟩
  rw [composeMasks_eq_composeRec, isMinimal_iff_getLast?]
  exact composeRec_minimal _ _ ((isMinimal_iff_getLast? _).mp h1)
    ((isMinimal_iff_getLast? _).mp h2)

/-- The minimal form kept by both combinators at `MASK(0,1)` and
`MASK(1,0,0,1)`. -/
theorem masks_stay_minimal_witness :
    IsMinimal (MASK [0, 1]) ∧ IsMinimal (MASK [1, 0, 0, 1]) ∧
    (IsMinimal (orMasks (MASK [0, 1]) (MASK [1, 0, 0, 1])) ∧
      IsMinimal (composeMasks (MASK [0, 1]) (MASK [1, 0, 0, 1]))) :=
  ⟨by decide, by decide,
    masks_stay_minimal.2 (MASK [0, 1]) (MASK [1, 0, 0, 1]) (by decide) (by decide)⟩

/-! iteration count -/

theorem composeRemaining_done (mask1 mask2 : Mask) (i1 i2 : Nat)
    (h : ¬ (i1 < mask1.length ∨ i2 < mask2.length)) : composeRemaining mask1 mask2 i1 i2 = 0 := by
  unfold composeRemaining
  rw [List.drop_eq_nil_of_le (by omega)]
  simp
  omega

theorem composeRemaining_set (mask1 mask2 : Mask) (i1 i2 : Nat)
    (h : i1 < mask1.length ∧ truthy (mask1.getD i1 0) = true) :
    composeRemaining mask1 mask2 i1 i2 = composeRemaining mask1 mask2 (i1 + 1) i2 + 1 := by
  unfold composeRemaining
  obtain ⟨h1, h2⟩ := h
  have hg : mask1.getD i1 0 = mask1[i1] := by
    rw [List.getD_eq_getElem?_getD, List.getElem?_eq_getElem h1]; rfl
  rw [List.drop_eq_getElem_cons h1, List.countP_cons, ← hg, if_pos h2]
  omega

theorem composeRemaining_unset (mask1 mask2 : Mask) (i1 i2 : Nat)
    (hc : i1 < mask1.length ∨ i2 < mask2.length)
    (h : ¬ (i1 < mask1.length ∧ truthy (mask1.getD i1 0) = true)) :
    composeRemaining mask1 mask2 i1 i2 = composeRemaining mask1 mask2 (i1 + 1) (i2 + 1) + 1 := by
  unfold composeRemaining
  by_cases h1 : i1 < mask1.length
  · have hg : mask1.getD i1 0 = mask1[i1] := by
      rw [List.getD_eq_getElem?_getD, List.getElem?_eq_getElem h1]; rfl
    have hle : (mask1.drop (i1 + 1)).countP truthy ≤ mask1.length - (i1 + 1) := by
      have := List.countP_le_length truthy (l := mask1.drop (i1 + 1))
      rw [List.length_drop] at this
      exact this
    rw [List.drop_eq_getElem_cons h1, List.countP_cons, ← hg, if_neg (fun ht => h ⟨h1, ht⟩)]
    omega
  · rw [List.drop_eq_nil_of_le (by omega : mask1.length ≤ i1),
      List.drop_eq_nil_of_le (by omega : mask1.length ≤ i1 + 1)]
    simp
    omega

/-- The final value of `j`: the loop runs `composeRemaining` more iterations. -/
theorem composeLoop_fst (mask1 mask2 : Mask) (fuel i1 i2 j : Nat) (buf : Mask)
    (hf : (mask1.length - i1) + (mask2.length - i2) ≤ fuel) :
    (composeLoop mask1 mask2 fuel i1 i2 j buf).1 = j + composeRemaining mask1 mask2 i1 i2 := by
  induction fuel generalizing i1 i2 j buf with
  | zero => rw [composeLoop, composeRemaining_done _ _ _ _ (by omega)]; rfl
  | succ fuel ih =>
    rw [composeLoop]
    by_cases hc : i1 < mask1.length ∨ i2 < mask2.length
    · rw [if_pos hc]
      by_cases h1 : i1 < mask1.length ∧ truthy (mask1.getD i1 0) = true
      · rw [if_pos h1, ih _ _ _ _ (by omega), composeRemaining_set _ _ _ _ h1]; omega
      · rw [if_neg h1, ih _ _ _ _ (by omega), composeRemaining_unset _ _ _ _ hc h1]; omega
    · rw [if_neg hc, composeRemaining_done _ _ _ _ hc]; rfl

theorem composeLoop_snd_length (mask1 mask2 : Mask) (fuel i1 i2 j : Nat) (buf : Mask) :
    (composeLoop mask1 mask2 fuel i1 i2 j buf).2.length = buf.length := by
  induction fuel generalizing i1 i2 j buf with
  | zero => rfl
  | succ fuel ih =>
    rw [composeLoop]
    split
    · split <;> rw [ih, List.length_set]
    · rfl

/-- The loop stores to the consecutive indices `j, j + 1, ...`, one per
iteration. -/
theorem composeWrites_eq (mask1 mask2 : Mask) (fuel i1 i2 j : Nat)
    (hf : (mask1.length - i1) + (mask2.length - i2) ≤ fuel) :
    composeWrites mask1 mask2 fuel i1 i2 j =
      List.range' j (composeRemaining mask1 mask2 i1 i2) := by
  induction fuel generalizing i1 i2 j with
  | zero => rw [composeWrites, composeRemaining_done _ _ _ _ (by omega)]; rfl
  | succ fuel ih =>
    rw [composeWrites]
    by_cases hc : i1 < mask1.length ∨ i2 < mask2.length
    · rw [if_pos hc]
      by_cases h1 : i1 < mask1.length ∧ truthy (mask1.getD i1 0) = true
      · rw [if_pos h1, ih _ _ _ (by omega), composeRemaining_set _ _ _ _ h1, List.range'_succ]
      · rw [if_neg h1, ih _ _ _ (by omega), composeRemaining_unset _ _ _ _ hc h1,
          List.range'_succ]
    · rw [if_neg hc, composeRemaining_done _ _ _ _ hc]; rfl

theorem composeRemaining_zero (mask1 mask2 : Mask) :
    composeRemaining mask1 mask2 0 0 =
      max mask1.length (mask2.length + mask1.countP truthy) := rfl

/-- C17: `composeMasks` never stores outside the buffer it allocates and
always terminates.  With `j = max(mask1.length, mask2.length + (number of set
entries of mask1))`: the loop ends with the cursor `j` at that value, having
stored to the indices `0 .. j - 1` in order; every one of them is below the
buffer length `mask1.length + mask2.length`; a larger iteration bound changes
nothing (the loop stops by its own condition); and the returned mask has
length exactly `j`, trailing unset entries included. -/
theorem composeMasks_iteration_count (mask1 mask2 : Mask) :
    (composeLoop mask1 mask2 (mask1.length + mask2.length) 0 0 0
        (List.replicate (mask1.length + mask2.length) 0)).1 =
      max mask1.length (mask2.length + mask1.countP truthy) ∧
    composeWrites mask1 mask2 (mask1.length + mask2.length) 0 0 0 =
      List.range (max mask1.length (mask2.length + mask1.countP truthy)) ∧
    (∀ x ∈ composeWrites mask1 mask2 (mask1.length + mask2.length) 0 0 0,
      x < (List.replicate (mask1.length + mask2.length) 0).length) ∧
    (∀ extra : Nat,
      composeLoop mask1 mask2 (mask1.length + mask2.length + extra) 0 0 0
          (List.replicate (mask1.length + mask2.length) 0) =
        composeLoop mask1 mask2 (mask1.length + mask2.length) 0 0 0
          (List.replicate (mask1.length + mask2.length) 0)) ∧
    (composeMasks mask1 mask2).length =
      max mask1.length (mask2.length + mask1.countP truthy) ∧
    composeMasks (MASK [1, 0, 0]) (MASK [0]) = MASK [1, 0, 0] := by
  have hj := composeLoop_fst mask1 mask2 (mask1.length + mask2.length) 0 0 0
    (List.replicate (mask1.length + mask2.length) 0) (by omega)
  rw [Nat.zero_add, composeRemaining_zero] at hj
  have hw := composeWrites_eq mask1 mask2 (mask1.length + mask2.length) 0 0 0 (by omega)
  rw [composeRemaining_zero] at hw
  have hle : max mask1.length (mask2.length + mask1.countP truthy) ≤
      mask1.length + mask2.length := by
    have := List.countP_le_length truthy (l := mask1)
    omega
  refine ⟨hj, ?_, ?_, ?_, ?_, by decide⟩
  · rw [hw, List.range_eq_range']
  · intro x hx
    rw [hw, List.mem_range'] at hx
    obtain ⟨i, hi, rfl⟩ := hx
    rw [List.length_replicate]
    omega
  · intro extra
    exact composeLoop_exits mask1 mask2 _ extra 0 0 0 _ (by omega)
  · unfold composeMasks
    simp only []
    rw [List.length_take, hj, composeLoop_snd_length, List.length_replicate]
    omega

/-! associativity -/

theorem composeRec_assoc (a b c : Mask) :
    composeRec (composeRec a b) c = composeRec a (composeRec b c) := by
  induction a generalizing b c with
  | nil => rfl
  | cons x a ih =>
    by_cases hx : truthy x = true
    · have h1 : composeRec (x :: a) b = 1 :: composeRec a b := by
        rw [composeRec, if_pos hx]
      have h2 : composeRec (x :: a) (composeRec b c) = 1 :: composeRec a (composeRec b c) := by
        rw [composeRec, if_pos hx]
      rw [h1, h2, composeRec, if_pos (by rfl), ih]
    · have h1 : ∀ m : Mask, composeRec (x :: a) m = m.headD 0 :: composeRec a m.tail := by
        intro m; rw [composeRec, if_neg hx]
      rw [h1, h1]
      cases b with
      | nil =>
        have hb : composeRec [] c = c := rfl
        have h0 : composeRec (List.headD [] 0 :: composeRec a (List.tail [])) c =
            c.headD 0 :: composeRec (composeRec a []) c.tail := by
          rw [composeRec, if_neg (by decide)]
          rfl
        rw [h0, hb, ih [] c.tail]
        rfl
      | cons y b =>
        by_cases hy : truthy y = true
        · have e1 : composeRec (List.headD (y :: b) 0 :: composeRec a (List.tail (y :: b))) c =
              1 :: composeRec (composeRec a b) c := by
            show composeRec (y :: composeRec a b) c = _
            rw [composeRec, if_pos hy]
          have e2 : composeRec (y :: b) c = 1 :: composeRec b c := by
            rw [composeRec, if_pos hy]
          rw [e1, e2, ih]
          rfl
        · have e1 : composeRec (List.headD (y :: b) 0 :: composeRec a (List.tail (y :: b))) c =
              c.headD 0 :: composeRec (composeRec a b) c.tail := by
            show composeRec (y :: composeRec a b) c = _
            rw [composeRec, if_neg hy]
          have e2 : composeRec (y :: b) c = c.headD 0 :: composeRec b c.tail := by
            rw [composeRec, if_neg hy]
          rw [e1, e2, ih]
          rfl

/-- C18: `composeMasks` is associative: for all masks `a`, `b`, `c`,
composing `composeMasks (a, b)` with `c` gives the same mask, entry for entry
and of the same length, as composing `a` with `composeMasks (b, c)`. -/
theorem composeMasks_assoc (a b c : Mask) :
    composeMasks (composeMasks a b) c = composeMasks a (composeMasks b c) := by
  rw [composeMasks_eq_composeRec, composeMasks_eq_composeRec, composeMasks_eq_composeRec,
    composeMasks_eq_composeRec, composeRec_assoc]

/-! ## Reading back the rows of addSelectedRows -/

/-- Parsing undoes serialising on every 0/1 mask in minimal form that fits
the cap. -/
theorem stringToMask_maskToString_of_minimal (m : Mask) (options : Option Options)
    (hbool : IsBoolMask m) (hmin : IsMinimal m)
    (hlen : (m.length : Int) ≤ (options.getD DefaultOptions).maxMaskLength) :
    stringToMask (maskToString m) options = m := by
  obtain ⟨hR1, hR2⟩ := maskSpans_spec m
  have hS : survivingSpans (maskToString m).data (options.getD DefaultOptions).maxMaskLength =
      (maskSpans m).map (fun p => ((p.1 : Int), (p.2 : Int))) := by
    show survivingSpans (join [',', ' '] ((maskSpans m).map renderSpan)) _ = _
    apply survivingSpans_join_render
    intro p hp
    have hp2 := hR1 p hp
    exact ⟨hp2.1, by omega⟩
  have hcov : ∀ k, covered (survivingSpans (maskToString m).data
      (options.getD DefaultOptions).maxMaskLength) k ↔ isSet m k := by
    intro k
    rw [hS, hR2 k]
    unfold covered
    constructor
    · rintro ⟨s, hs, h1, h2⟩
      obtain ⟨p, hp, rfl⟩ := List.mem_map.mp hs
      exact ⟨p, hp, by simpa using h1, by simpa using h2⟩
    · rintro ⟨p, hp, h1, h2⟩
      exact ⟨_, List.mem_map.mpr ⟨p, hp, rfl⟩, by simpa using h1, by simpa using h2⟩
  have hset : ∀ k, isSet (stringToMask (maskToString m) options) k ↔ isSet m k := by
    intro k
    rw [stringToMask_isSet, hcov]
    constructor
    · exact fun h => h.2
    · intro h
      exact ⟨covered_lt_length _ options k ((hcov k).mpr h), h⟩
  have hl : (stringToMask (maskToString m) options).length = m.length := by
    apply le_antisymm
    · rcases (stringToMask_length_spec (maskToString m) options).2 with h0 | ⟨s, hs, hl⟩
      · omega
      · rw [hS] at hs
        obtain ⟨p, hp, rfl⟩ := List.mem_map.mp hs
        have := (hR1 p hp).2
        simp only at hl
        omega
    · rcases hmin with h0 | h0
      · rw [h0]; exact Nat.zero_le _
      · have := isSet_lt_length ((hset _).mpr h0)
        have := isSet_lt_length h0
        omega
  exact IsBoolMask.ext (stringToMask_isBool _ _) hbool hl hset

theorem composeRec_isBool (m1 m2 : Mask) (h2 : IsBoolMask m2) :
    IsBoolMask (composeRec m1 m2) := by
  induction m1 generalizing m2 with
  | nil => exact h2
  | cons a m ih =>
    rw [composeRec]
    have htail : IsBoolMask m2.tail := fun x hx => h2 x (List.mem_of_mem_tail hx)
    have hhead : m2.headD 0 = 0 ∨ m2.headD 0 = 1 := by
      cases m2 with
      | nil => left; rfl
      | cons b r => exact h2 b (List.mem_cons_self _ _)
    split
    · intro x hx
      rcases List.mem_cons.mp hx with hx | hx
      · right; exact hx
      · exact ih m2 h2 x hx
    · intro x hx
      rcases List.mem_cons.mp hx with hx | hx
      · rw [hx]; exact hhead
      · exact ih m2.tail htail x hx

theorem stringToMask_length_le_default (str : String) :
    (stringToMask str none).length ≤ 2000000 := by
  by_cases h : (stringToMask str none).length = 0
  · omega
  · have := (stringToMask_last_set str none h).2
    simp only [Option.getD_none, DefaultOptions] at this
    omega

theorem newMask_isBool (oldParams : Params) (addRows : String) (fromInput : Bool) :
    IsBoolMask (newMask oldParams addRows fromInput) := by
  unfold newMask
  simp only []
  split
  · exact orMasks_isBool _ _ (stringToMask_isBool _ _) (stringToMask_isBool _ _)
  · rw [composeMasks_eq_composeRec]
    exact composeRec_isBool _ _ (stringToMask_isBool _ _)

theorem newMask_minimal (oldParams : Params) (addRows : String) (fromInput : Bool) :
    IsMinimal (newMask oldParams addRows fromInput) := by
  unfold newMask
  simp only []
  split
  · exact orMasks_minimal _ _ (stringToMask_minimal _ _) (stringToMask_minimal _ _)
  · rw [composeMasks_eq_composeRec, isMinimal_iff_getLast?]
    exact composeRec_minimal _ _ ((isMinimal_iff_getLast? _).mp (stringToMask_minimal _ _))
      ((isMinimal_iff_getLast? _).mp (stringToMask_minimal _ _))

/-- C20 (as stated, refuted): composing the masks of `1` and `2000000` gives a
mask of 2,000,001 entries, serialised as `rows`; parsed back with the default
options it is cut at the cap, so the mask read back is not the combined mask
and serialising it again does not give `rows` back. -/
theorem addSelectedRows_rows_beyond_cap :
    stringToMask ((addSelectedRows ⟨some "1", none, none⟩ "2000000" false).rows.getD "") none ≠
      newMask ⟨some "1", none, none⟩ "2000000" false ∧
    maskToString (stringToMask
        ((addSelectedRows ⟨some "1", none, none⟩ "2000000" false).rows.getD "") none) ≠
      (addSelectedRows ⟨some "1", none, none⟩ "2000000" false).rows.getD "" := by
  have hbool := newMask_isBool ⟨some "1", none, none⟩ "2000000" false
  have hmin := newMask_minimal ⟨some "1", none, none⟩ "2000000" false
  have hlen : (newMask ⟨some "1", none, none⟩ "2000000" false).length = 2000001 := by
    have h1 : stringToMask "1" none = [1] := by decide
    have hS : survivingSpans ("2000000" : String).data 2000000 = [(1999999, 1999999)] := by
      decide
    have h2 : (stringToMask "2000000" none).length = 2000000 := by
      obtain ⟨hU, hA⟩ := stringToMask_length_spec "2000000" none
      simp only [Option.getD_none, DefaultOptions, hS, List.mem_singleton, forall_eq,
        exists_eq_left] at hU hA
      rcases hA with h0 | h0
      · rw [h0] at hU; simp at hU
      · omega
    unfold newMask
    simp only [oldRows_v1, Option.getD_some, Bool.false_eq_true, if_false]
    rw [composeMasks_eq_composeRec, h1]
    generalize stringToMask "2000000" none = m2 at h2
    rw [composeRec, if_pos (by decide), composeRec, List.length_cons, h2]
  have hrows : (addSelectedRows ⟨some "1", none, none⟩ "2000000" false).rows.getD "" =
      maskToString (newMask ⟨some "1", none, none⟩ "2000000" false) := rfl
  rw [hrows]
  generalize newMask ⟨some "1", none, none⟩ "2000000" false = combined at hbool hmin hlen
  have hshort := stringToMask_length_le_default (maskToString combined)
  constructor
  · intro h
    rw [h] at hshort
    omega
  · intro h
    have e1 := stringToMask_maskToString_of_minimal combined (some ⟨2000001⟩) hbool hmin
      (by simp only [Option.getD_some]; omega)
    have e2 := stringToMask_maskToString_of_minimal (stringToMask (maskToString combined) none)
      (some ⟨2000001⟩) (stringToMask_isBool _ _) (stringToMask_minimal _ _)
      (by simp only [Option.getD_some]; omega)
    rw [h, e1] at e2
    rw [← e2] at hshort
    omega

/-- C20 (amended): the `rows` string that `addSelectedRows` returns survives
being stored and read back whenever the new selection was made on the input
view, or the combined mask is at most 2,000,000 long.  Parsing `rows` with
the default options then gives back exactly the combined mask, and
serialising that gives `rows` again. -/
theorem addSelectedRows_rows_reparse (oldParams : Params) (addRows : String) (fromInput : Bool)
    (h : fromInput = true ∨ (newMask oldParams addRows fromInput).length ≤ 2000000) :
    ∃ rows : String,
      (addSelectedRows oldParams addRows fromInput).rows = some rows ∧
      stringToMask rows none = newMask oldParams addRows fromInput ∧
      maskToString (stringToMask rows none) = rows := by
  have hlen : (newMask oldParams addRows fromInput).length ≤ 2000000 := by
    rcases h with h | h
    · subst h
      unfold newMask
      simp only [if_true]
      rw [orMasks_length]
      exact max_le (stringToMask_length_le_default _) (stringToMask_length_le_default _)
    · exact h
  have hrt := stringToMask_maskToString_of_minimal (newMask oldParams addRows fromInput) none
    (newMask_isBool _ _ _) (newMask_minimal _ _ _)
    (by simp only [Option.getD_none, DefaultOptions]; omega)
  refine ⟨maskToString (newMask oldParams addRows fromInput), rfl, hrt, ?_⟩
  rw [hrt]

/-- The round trip at `{rows: '1-3'}` with `addRows = '2-3'` on the output
view, where the combined mask has six entries. -/
theorem addSelectedRows_rows_reparse_witness :
    (false = true ∨ (newMask ⟨some "1-3", none, none⟩ "2-3" false).length ≤ 2000000) ∧
    ∃ rows : String,
      (addSelectedRows ⟨some "1-3", none, none⟩ "2-3" false).rows = some rows ∧
      stringToMask rows none = newMask ⟨some "1-3", none, none⟩ "2-3" false ∧
      maskToString (stringToMask rows none) = rows :=
  ⟨by decide,
    addSelectedRows_rows_reparse ⟨some "1-3", none, none⟩ "2-3" false (by decide)⟩

end DropRows
